import Mathlib

/-!
Verification development for the matching-and-pricing engine of `src/server.js`.

Modelling conventions:
* JavaScript numbers are modelled as exact rationals (`ℚ`).  In the
  stochastic pricing formula the standard-normal Box-Muller sample (the only
  transcendental computation) is abstracted as a parameter ranging over all
  rationals, which covers every finite value the double can take.
* Mongo `ObjectId`s are modelled as `Nat`; an actor is addressed by its id
  together with the `isNPC` flag (the two Mongo collections `User` / `NPC`).
* A JavaScript object used as a map (actor holdings) is modelled as an
  association list with a lookup that defaults to `0`, matching the
  `holdings[sym] || 0` reads in the source.  A compound assignment
  `holdings[sym] -= d` on a key that is absent would produce `NaN` in
  JavaScript; the model evaluates it with the `0` default.  All concrete
  scenarios used below only ever write keys that are present.
* `Array.prototype.sort` with the comparators `(a, b) => b.price - a.price`
  and `(a, b) => a.price - b.price` is required by ECMAScript to be a stable
  sort; for a consistent comparator the stable result is unique, so it is
  modelled by insertion sort (`List.insertionSort`), which realises exactly
  that result.
* `mongoose` documents: `findById` returns a fresh document object; `save()`
  writes the document's fields back.  In the crossing loop of
  `matchCompanyOrders` both parties are fetched *before* either mutation, so
  when buyer and seller are the same actor the seller's save overwrites the
  buyer's; the model reproduces this by reading both actor values up front.
* The matching loop of the source is a `while` loop whose termination is not
  structural; it is modelled with an explicit fuel parameter, and every
  property proved about it holds for every fuel value.
* Ghost instrumentation: the functions additionally return logs (fills of
  the market walks, fills of the crossing loop, stop-order resubmissions)
  that record exactly the trades applied and the `addOrderToBook(...,
  "market", ...)` resubmission calls of the source; the logs do not influence
  the computed state.
-/

namespace Trade

/-- Kind of an order book entry: the `type` field of `OrderEntrySchema`,
`enum: ["limit", "market", "stop"]`. -/
inductive OrderType where
  | limit
  | market
  | stop
deriving DecidableEq, Repr

/-- Side of the book, the `side` argument of `addOrderToBook`. -/
inductive Side where
  | buy
  | sell
deriving DecidableEq, Repr

/-- An order book entry (`OrderEntrySchema` in `server.js`). -/
structure Order where
  actorId : Nat
  isNPC : Bool
  price : ℚ
  amount : ℚ
  type : OrderType
  stopPrice : Option ℚ
deriving DecidableEq, Repr

/-- The per-company order book: `orderBook: { buy: [...], sell: [...] }`. -/
structure Book where
  buy : List Order
  sell : List Order
deriving DecidableEq, Repr

/-- Fundamentals record of `CompanySchema`. -/
structure Fundamentals where
  revenue : ℚ
  profit : ℚ
  rnd : ℚ
deriving DecidableEq, Repr

/-- A company document (`CompanySchema`), restricted to the fields the engine
reads or writes.  `lastUpdated` is a timestamp modelled as `ℕ`. -/
structure Company where
  symbol : String
  price : ℚ
  volume : ℚ
  sharesOutstanding : ℚ
  fundamentals : Fundamentals
  volatility : ℚ
  orderBook : Book
  lastUpdated : ℕ
deriving DecidableEq, Repr

/-- An actor document (`UserSchema` / `NPCSchema`): cash balance and the
holdings object, modelled as an association list symbol ↦ quantity. -/
structure Actor where
  balance : ℚ
  holdings : List (String × ℚ)
deriving DecidableEq, Repr

/-- Key of an actor: its id together with the collection it lives in
(`getActorDocument(actorId, isNPC)` dispatches on `isNPC`). -/
structure ActorKey where
  id : Nat
  isNPC : Bool
deriving DecidableEq, Repr

/-- The actor store: both Mongo collections, as one association list. -/
abbrev ActorsT : Type := List (ActorKey × Actor)

/-- Key-addressed lookup in an association list (a JS object / a Mongo
collection keyed by id). -/
def alookup {α β : Type} [BEq α] (l : List (α × β)) (k : α) : Option β :=
  (l.find? (fun p => p.1 == k)).map (fun p => p.2)

/-- Key-addressed write in an association list: update in place, or append. -/
def aset {α β : Type} [BEq α] (l : List (α × β)) (k : α) (v : β) : List (α × β) :=
  if (l.find? (fun p => p.1 == k)).isSome then
    l.map (fun p => if p.1 == k then (p.1, v) else p)
  else
    l ++ [(k, v)]

/-- Read `holdings[sym] || 0`: an absent key reads as `0`. -/
def getH (h : List (String × ℚ)) (sym : String) : ℚ :=
  (alookup h sym).getD 0

/-- Write `holdings[sym] = v`: update the key in place, or append it. -/
def setH (h : List (String × ℚ)) (sym : String) (v : ℚ) : List (String × ℚ) :=
  aset h sym v

/-- Model of `getActorDocument`: look the actor up in its collection. -/
def getActor (actors : ActorsT) (k : ActorKey) : Option Actor :=
  alookup actors k

/-- Model of `doc.save()`: write the document value back into the store. -/
def setActor (actors : ActorsT) (k : ActorKey) (a : Actor) : ActorsT :=
  aset actors k a

/-- The utility `clamp(v, lo, hi) = Math.max(lo, Math.min(hi, v))`. -/
def clamp (v lo hi : ℚ) : ℚ := max lo (min hi v)

/-- `Number.MAX_SAFE_INTEGER`. -/
def maxSafeInteger : ℚ := 2 ^ 53 - 1

/-- Comparator order of the buy side: `(a, b) => b.price - a.price`, i.e.
descending price. -/
def buyLE (a b : Order) : Prop := b.price ≤ a.price

/-- Comparator order of the sell side: `(a, b) => a.price - b.price`, i.e.
ascending price. -/
def sellLE (a b : Order) : Prop := a.price ≤ b.price

instance : DecidableRel buyLE := fun a b => inferInstanceAs (Decidable (b.price ≤ a.price))

instance : DecidableRel sellLE := fun a b => inferInstanceAs (Decidable (a.price ≤ b.price))

instance : IsTotal Order buyLE := ⟨fun a b => le_total b.price a.price⟩

instance : IsTrans Order buyLE := ⟨fun _ _ _ h h2 => le_trans h2 h⟩

instance : IsTotal Order sellLE := ⟨fun a b => le_total a.price b.price⟩

instance : IsTrans Order sellLE := ⟨fun _ _ _ h h2 => le_trans h h2⟩

/-- Stable descending sort of the buy side (`book.buy.sort((a, b) => b.price - a.price)`). -/
def sortBuy (l : List Order) : List Order := l.insertionSort buyLE

/-- Stable ascending sort of the sell side (`book.sell.sort((a, b) => a.price - b.price)`). -/
def sortSell (l : List Order) : List Order := l.insertionSort sellLE

/-- The utility `sortOrderBook(book)`. -/
def sortOrderBook (b : Book) : Book := ⟨sortBuy b.buy, sortSell b.sell⟩

/-- Orders of one price level, in book order. -/
def atPrice (k : ℚ) (l : List Order) : List Order := l.filter (fun o => o.price = k)

/-- Identity of an order, forgetting the mutable `amount` field. -/
def stamp (o : Order) : Nat × Bool × ℚ × OrderType × Option ℚ :=
  (o.actorId, o.isNPC, o.price, o.type, o.stopPrice)

/-- Price-level identities: the FIFO footprint of one price level. -/
def lane (k : ℚ) (l : List Order) : List (Nat × Bool × ℚ × OrderType × Option ℚ) :=
  (atPrice k l).map stamp

/-- One fill of a market-order walk: the executed amount and the price it
executed at (ghost log; the source only mutates state here). -/
structure Fill where
  price : ℚ
  amount : ℚ
deriving DecidableEq, Repr

/-- Result of walking one side of the book with a market order
(the loop bodies of `executeMarketBuy` / `executeMarketSell`). -/
structure WalkRes where
  actors : ActorsT
  book : List Order
  price : ℚ
  volume : ℚ
  remaining : ℚ
  fills : List Fill
deriving Repr

/-- The loop of `executeMarketBuy`: walk the (already sorted) sell side.
Each iteration fetches the buyer, breaks on insufficient funds, applies the
ledger mutation (buyer first, then the resting seller, each fetched fresh),
updates price and volume, decrements the resting order (splicing it when
exhausted) and the remaining quantity. -/
def walkBuy (sym : String) (aid : Nat) (npc : Bool) (actors : ActorsT)
    (price volume : ℚ) : List Order → ℚ → WalkRes
  | [], remaining => ⟨actors, [], price, volume, remaining, []⟩
  | o :: rest, remaining =>
    if remaining ≤ 0 then ⟨actors, o :: rest, price, volume, remaining, []⟩
    else
      let deal := min o.amount remaining
      let cost := deal * o.price
      match getActor actors ⟨aid, npc⟩ with
      | none => ⟨actors, o :: rest, price, volume, remaining, []⟩
      | some buyer =>
        if buyer.balance < cost then ⟨actors, o :: rest, price, volume, remaining, []⟩
        else
          let actors1 := setActor actors ⟨aid, npc⟩
            ⟨buyer.balance - cost, setH buyer.holdings sym (getH buyer.holdings sym + deal)⟩
          let actors2 :=
            match getActor actors1 ⟨o.actorId, o.isNPC⟩ with
            | some seller => setActor actors1 ⟨o.actorId, o.isNPC⟩
                ⟨seller.balance + cost, setH seller.holdings sym (getH seller.holdings sym - deal)⟩
            | none => actors1
          if o.amount - deal ≤ 0 then
            let r := walkBuy sym aid npc actors2 o.price (volume + deal) rest (remaining - deal)
            { r with fills := ⟨o.price, deal⟩ :: r.fills }
          else
            let r := walkBuy sym aid npc actors2 o.price (volume + deal) rest (remaining - deal)
            { r with book := ({ o with amount := o.amount - deal }) :: r.book,
                     fills := ⟨o.price, deal⟩ :: r.fills }

/-- The loop of `executeMarketSell`: walk the (already sorted) buy side.
Each iteration fetches the incoming seller, breaks on insufficient holdings,
applies the ledger mutation (seller first, then the resting buyer), updates
price and volume, decrements the resting order and the remaining quantity. -/
def walkSell (sym : String) (aid : Nat) (npc : Bool) (actors : ActorsT)
    (price volume : ℚ) : List Order → ℚ → WalkRes
  | [], remaining => ⟨actors, [], price, volume, remaining, []⟩
  | o :: rest, remaining =>
    if remaining ≤ 0 then ⟨actors, o :: rest, price, volume, remaining, []⟩
    else
      let deal := min o.amount remaining
      let gain := deal * o.price
      match getActor actors ⟨aid, npc⟩ with
      | none => ⟨actors, o :: rest, price, volume, remaining, []⟩
      | some seller =>
        if getH seller.holdings sym < deal then ⟨actors, o :: rest, price, volume, remaining, []⟩
        else
          let actors1 := setActor actors ⟨aid, npc⟩
            ⟨seller.balance + gain, setH seller.holdings sym (getH seller.holdings sym - deal)⟩
          let actors2 :=
            match getActor actors1 ⟨o.actorId, o.isNPC⟩ with
            | some buyer => setActor actors1 ⟨o.actorId, o.isNPC⟩
                ⟨buyer.balance - gain, setH buyer.holdings sym (getH buyer.holdings sym + deal)⟩
            | none => actors1
          if o.amount - deal ≤ 0 then
            let r := walkSell sym aid npc actors2 o.price (volume + deal) rest (remaining - deal)
            { r with fills := ⟨o.price, deal⟩ :: r.fills }
          else
            let r := walkSell sym aid npc actors2 o.price (volume + deal) rest (remaining - deal)
            { r with book := ({ o with amount := o.amount - deal }) :: r.book,
                     fills := ⟨o.price, deal⟩ :: r.fills }

/-- Result of `executeMarketBuy` / `executeMarketSell` on a company:
the updated company and actor store, the unfilled remainder the function
returns, and the ghost fill log. -/
structure ExecRes where
  company : Company
  actors : ActorsT
  remaining : ℚ
  fills : List Fill
deriving Repr

/-- The function `executeMarketBuy(actorId, isNPC, company, amount)`: sort the
sell side ascending, walk it, and leave the remainder as the return value. -/
def executeMarketBuy (aid : Nat) (npc : Bool) (c : Company) (actors : ActorsT)
    (amount : ℚ) : ExecRes :=
  let w := walkBuy c.symbol aid npc actors c.price c.volume (sortSell c.orderBook.sell) amount
  ⟨{ c with
      price := w.price,
      volume := w.volume,
      orderBook := { c.orderBook with sell := w.book } },
    w.actors, w.remaining, w.fills⟩

/-- The function `executeMarketSell(actorId, isNPC, company, amount)`: sort the
buy side descending, walk it, and leave the remainder as the return value. -/
def executeMarketSell (aid : Nat) (npc : Bool) (c : Company) (actors : ActorsT)
    (amount : ℚ) : ExecRes :=
  let w := walkSell c.symbol aid npc actors c.price c.volume (sortBuy c.orderBook.buy) amount
  ⟨{ c with
      price := w.price,
      volume := w.volume,
      orderBook := { c.orderBook with buy := w.book } },
    w.actors, w.remaining, w.fills⟩

/-- The function `addOrderToBook`: a market order executes immediately (its
returned remainder is discarded by this caller); a limit or stop order is
pushed onto its side and the book is re-sorted. -/
def addOrderToBook (aid : Nat) (npc : Bool) (c : Company) (actors : ActorsT)
    (side : Side) (type : OrderType) (price amount : ℚ) (stopPrice : Option ℚ) :
    Company × ActorsT :=
  match type with
  | OrderType.market =>
    match side with
    | Side.buy => let r := executeMarketBuy aid npc c actors amount; (r.company, r.actors)
    | Side.sell => let r := executeMarketSell aid npc c actors amount; (r.company, r.actors)
  | _ =>
    let entry : Order := ⟨aid, npc, price, amount, type, stopPrice⟩
    let book := match side with
      | Side.buy => { c.orderBook with buy := c.orderBook.buy ++ [entry] }
      | Side.sell => { c.orderBook with sell := c.orderBook.sell ++ [entry] }
    ({ c with orderBook := sortOrderBook book }, actors)

/-- A trade record as pushed by the crossing loop of `matchCompanyOrders`
(`timestamp` omitted: it is an uninterpreted wall-clock read). -/
structure TradeRec where
  symbol : String
  price : ℚ
  amount : ℚ
  buyActorId : Nat
  sellActorId : Nat
deriving DecidableEq, Repr

/-- Ghost record of one crossing-loop fill: the two head orders as they were
when the trade was made, with the deal price and amount. -/
structure CrossFill where
  buyer : Order
  seller : Order
  price : ℚ
  amount : ℚ
deriving DecidableEq, Repr

/-- State threaded through the crossing loop of `matchCompanyOrders`. -/
structure MState where
  buy : List Order
  sell : List Order
  actors : ActorsT
  lastPrice : ℚ
  volume : ℚ
  trades : List TradeRec
  cfills : List CrossFill
deriving Repr

/-- The `dealAmount` computation of the crossing loop: the head amounts,
clamped by the buyer's affordability (`Math.floor(balance / price)`, skipped
for a market order) and the seller's holdings (skipped for a market order).
Actors that are not found impose no clamp. -/
def computeDeal (sym : String) (actors : ActorsT) (bo so : Order) : ℚ :=
  let d0 := min bo.amount so.amount
  let d1 := match getActor actors ⟨bo.actorId, bo.isNPC⟩ with
    | some b => if bo.type ≠ OrderType.market then min d0 ((⌊b.balance / bo.price⌋ : ℤ) : ℚ) else d0
    | none => d0
  match getActor actors ⟨so.actorId, so.isNPC⟩ with
    | some se => if so.type ≠ OrderType.market then min d1 (getH se.holdings sym) else d1
    | none => d1

/-- The deal price of the crossing loop: a market buy fills at the resting
sell price, a market sell at the resting buy price, two price orders at the
midpoint. -/
def crossPrice (bo so : Order) : ℚ :=
  if bo.type = OrderType.market then so.price
  else if so.type = OrderType.market then bo.price
  else (bo.price + so.price) / 2

/-- The crossing loop (`while (buy.length && sell.length && buy[0].price >=
sell[0].price)`), with explicit fuel.  Both actor documents are fetched
before either mutation, so if buyer and seller are the same actor the
seller's save overwrites the buyer's (mongoose two-document behaviour). -/
def crossLoop (sym : String) : ℕ → MState → MState
  | 0, s => s
  | fuel + 1, s =>
    match s.buy, s.sell with
    | bo :: btl, so :: stl =>
      if so.price ≤ bo.price then
        let buyerDoc := getActor s.actors ⟨bo.actorId, bo.isNPC⟩
        let sellerDoc := getActor s.actors ⟨so.actorId, so.isNPC⟩
        let d := computeDeal sym s.actors bo so
        if d ≤ 0 then
          crossLoop sym fuel { s with buy := btl, sell := stl }
        else
          let dealPrice := crossPrice bo so
          let actors1 := match buyerDoc with
            | some b => setActor s.actors ⟨bo.actorId, bo.isNPC⟩
                ⟨b.balance - d * dealPrice, setH b.holdings sym (getH b.holdings sym + d)⟩
            | none => s.actors
          let actors2 := match sellerDoc with
            | some se => setActor actors1 ⟨so.actorId, so.isNPC⟩
                ⟨se.balance + d * dealPrice, setH se.holdings sym (getH se.holdings sym - d)⟩
            | none => actors1
          let bo2 := { bo with amount := bo.amount - d }
          let so2 := { so with amount := so.amount - d }
          crossLoop sym fuel
            { buy := if bo2.amount ≤ 0 then btl else bo2 :: btl,
              sell := if so2.amount ≤ 0 then stl else so2 :: stl,
              actors := actors2,
              lastPrice := dealPrice,
              volume := s.volume + d,
              trades := s.trades ++ [⟨sym, dealPrice, d, bo.actorId, so.actorId⟩],
              cfills := s.cfills ++ [⟨bo, so, dealPrice, d⟩] }
      else s
    | _, _ => s

/-- Ghost record of one stop-trigger resubmission: the
`addOrderToBook(actorId, isNPC, company, side, "market", currentPrice,
amount)` call made for a triggered stop order. -/
structure Resubmit where
  side : Side
  actorId : Nat
  isNPC : Bool
  amount : ℚ
deriving DecidableEq, Repr

/-- Trigger test of the buy-stop scan:
`type === "stop" && stopPrice !== null && currentPrice >= stopPrice`. -/
def triggersBuy (p0 : ℚ) (o : Order) : Bool :=
  o.type == OrderType.stop &&
    (match o.stopPrice with
     | some t => decide (t ≤ p0)
     | none => false)

/-- Trigger test of the sell-stop scan:
`type === "stop" && stopPrice !== null && currentPrice <= stopPrice`. -/
def triggersSell (p0 : ℚ) (o : Order) : Bool :=
  o.type == OrderType.stop &&
    (match o.stopPrice with
     | some t => decide (p0 ≤ t)
     | none => false)

/-- Result of the buy-stop trigger scan: updated actor store, the kept buy
orders, the sell side (mutated by the triggered market buys), price, volume,
and the ghost resubmission log. -/
structure StopBuyRes where
  actors : ActorsT
  buy : List Order
  sell : List Order
  price : ℚ
  volume : ℚ
  resub : List Resubmit
deriving Repr

/-- Result of the sell-stop trigger scan (dual to `StopBuyRes`). -/
structure StopSellRes where
  actors : ActorsT
  sell : List Order
  buy : List Order
  price : ℚ
  volume : ℚ
  resub : List Resubmit
deriving Repr

/-- The buy-stop scan of `matchCompanyOrders`: the source iterates the buy
array from the highest index down, so the recursion processes the tail (the
higher indices) first.  A triggered order is spliced out and resubmitted as
a market buy (`addOrderToBook` with type `"market"` executes it at once
against the sell side); `p0` is the price snapshot read once at the start. -/
def stopBuyPass (sym : String) (p0 : ℚ) (actors : ActorsT) (sell : List Order)
    (price volume : ℚ) : List Order → StopBuyRes
  | [] => ⟨actors, [], sell, price, volume, []⟩
  | o :: rest =>
    let r := stopBuyPass sym p0 actors sell price volume rest
    if triggersBuy p0 o then
      let w := walkBuy sym o.actorId o.isNPC r.actors r.price r.volume (sortSell r.sell) o.amount
      ⟨w.actors, r.buy, w.book, w.price, w.volume,
        r.resub ++ [⟨Side.buy, o.actorId, o.isNPC, o.amount⟩]⟩
    else
      ⟨r.actors, o :: r.buy, r.sell, r.price, r.volume, r.resub⟩

/-- The sell-stop scan of `matchCompanyOrders` (dual to `stopBuyPass`):
a triggered order is spliced out and resubmitted as a market sell, which
executes at once against the buy side. -/
def stopSellPass (sym : String) (p0 : ℚ) (actors : ActorsT) (buy : List Order)
    (price volume : ℚ) : List Order → StopSellRes
  | [] => ⟨actors, [], buy, price, volume, []⟩
  | o :: rest =>
    let r := stopSellPass sym p0 actors buy price volume rest
    if triggersSell p0 o then
      let w := walkSell sym o.actorId o.isNPC r.actors r.price r.volume (sortBuy r.buy) o.amount
      ⟨w.actors, r.sell, w.book, w.price, w.volume,
        r.resub ++ [⟨Side.sell, o.actorId, o.isNPC, o.amount⟩]⟩
    else
      ⟨r.actors, o :: r.sell, r.buy, r.price, r.volume, r.resub⟩

/-- Result of `matchCompanyOrders`: updated company and actors, the trade
list the function returns, and the ghost logs. -/
structure MatchRes where
  company : Company
  actors : ActorsT
  trades : List TradeRec
  resub : List Resubmit
  cfills : List CrossFill
deriving Repr

/-- The function `matchCompanyOrders(company)`: read the price snapshot
once (`currentPrice`), run the buy-stop scan then the sell-stop scan against
that snapshot, re-sort the book if any stop was triggered
(`orderBookChanged`), run the crossing loop, and finally write
`company.price = clamp(lastPrice, 1, MAX_SAFE_INTEGER)` where `lastPrice`
was initialised from the pre-match price and updated only by crossing-loop
trades. -/
def matchCompanyOrders (fuel : ℕ) (c : Company) (actors : ActorsT) : MatchRes :=
  let p0 := c.price
  let rb := stopBuyPass c.symbol p0 actors c.orderBook.sell c.price c.volume c.orderBook.buy
  let rs := stopSellPass c.symbol p0 rb.actors rb.buy rb.price rb.volume rb.sell
  let resub := rb.resub ++ rs.resub
  let buy1 := if resub = [] then rs.buy else sortBuy rs.buy
  let sell1 := if resub = [] then rs.sell else sortSell rs.sell
  let s := crossLoop c.symbol fuel ⟨buy1, sell1, rs.actors, p0, rs.volume, [], []⟩
  ⟨{ c with
      price := clamp s.lastPrice 1 maxSafeInteger,
      volume := s.volume,
      orderBook := ⟨s.buy, s.sell⟩ },
    s.actors, s.trades, resub, s.cfills⟩

/-- The `placeOrder` socket handler after symbol lookup: no validation of
price or quantity is performed; the order is added to the book (market
orders execute at once) and the book is matched. -/
def placeOrder (userId : Nat) (c : Company) (actors : ActorsT) (side : Side)
    (type : OrderType) (price amount : ℚ) (stopPrice : Option ℚ) (fuel : ℕ) : MatchRes :=
  let ca := addOrderToBook userId false c actors side type price amount stopPrice
  matchCompanyOrders fuel ca.1 ca.2

/-- The helper `computeImbalance(company)`. -/
def computeImbalance (c : Company) : ℚ :=
  let buyVol := c.orderBook.buy.foldl (fun s o => s + o.amount) (0 : ℚ)
  let sellVol := c.orderBook.sell.foldl (fun s o => s + o.amount) (0 : ℚ)
  if buyVol + sellVol = 0 then 0 else (buyVol - sellVol) / (buyVol + sellVol)

/-- JavaScript `x || d` on numbers (`0` is falsy). -/
def jsOr (x d : ℚ) : ℚ := if x = 0 then d else x

/-- JavaScript `Number(x.toFixed(4))`: round to 4 decimal places, ties away
from the smaller value (the ECMAScript rule picks the larger candidate). -/
def round4 (x : ℚ) : ℚ := ((round (x * 10000) : ℤ) : ℚ) / 10000

/-- The pre-rounding price computed by one `marketTick` iteration for one
company: the four multiplicative factors, the per-tick relative clamp to
`[0.9, 1.1]`, and the floor at `1`.  The standard-normal Box–Muller sample
`Math.sqrt(-2 * Math.log(u1)) * Math.cos(2 * Math.PI * u2)` is transcendental
and is abstracted as the parameter `z`: every finite value the double
`randStdNormal` can take is rational, so quantifying over all rational `z`
covers every outcome of the two uniform draws. -/
def marketTickClampedPrice (interestRate z : ℚ) (c : Company) : ℚ :=
  let imbalance := computeImbalance c
  let alpha : ℚ := 0.6
  let imbalanceImpact := 1 + alpha * imbalance * 0.02
  let f := c.fundamentals
  let fundScore := (f.profit + 0.6 * f.revenue + 0.4 * f.rnd) / max 1 (c.sharesOutstanding / 1000)
  let drift := 1 + 0.0005 * (fundScore - 1)
  let interestBias := 1 - (jsOr interestRate 1 - 1) * 0.08
  let baseVol := jsOr c.volatility 0.02
  let volScale := 1 + jsOr c.volume 0 / 20000
  let noiseFactor := 1 + z * baseVol * volScale * 0.5
  let newPrice0 := c.price * imbalanceImpact * drift * interestBias * noiseFactor
  let newPrice1 := c.price * clamp (newPrice0 / c.price) 0.9 1.1
  if newPrice1 < 1 then 1 else newPrice1

/-- One `marketTick` iteration for one company: `$set` only `price` (the
clamped, floored, 4-decimal-rounded value) and `lastUpdated`. -/
def marketTickCompany (interestRate z : ℚ) (t : ℕ) (c : Company) : Company :=
  { c with price := round4 (marketTickClampedPrice interestRate z c), lastUpdated := t }

/-- The Market singleton (`MarketSchema`). -/
structure MarketDoc where
  interestRate : ℚ
deriving DecidableEq, Repr

/-- The whole persisted state touched by the loops: all companies, both actor
collections, and the market singleton. -/
structure World where
  companies : List Company
  actors : ActorsT
  market : MarketDoc
deriving Repr

/-- The function `marketTick()`: revalue every company (each with its own
noise sample `z i`); the actor collections and the market document are not
read for writing anywhere in its body. -/
def marketTick (z : ℕ → ℚ) (t : ℕ) (w : World) : World :=
  { w with companies := w.companies.mapIdx (fun i c => marketTickCompany w.market.interestRate (z i) t c) }

/-- A sample instrument used by the concrete scenarios below. -/
def mkCompany (book : Book) : Company :=
  ⟨"AEEN", 100, 0, 100000, ⟨1000, 120, 70⟩, 1/50, book, 0⟩

/-- Sample instrument with an empty book. -/
def emptyCompany : Company := mkCompany ⟨[], []⟩

/-- Sample instrument with one resting sell limit of 5 units at 100 (the
scenario of the specification). -/
def restingSellCompany : Company := mkCompany ⟨[], [⟨2, false, 100, 5, OrderType.limit, none⟩]⟩

/-- Sample instrument with one resting sell limit of 5 units at 10. -/
def cheapSellCompany : Company := mkCompany ⟨[], [⟨2, false, 10, 5, OrderType.limit, none⟩]⟩

/-- Sample instrument holding a buy stop (trigger 90) and a sell stop
(trigger 100, limit price 95) while the price is 100: both triggers are hit
by the snapshot. -/
def stopsCompany : Company :=
  mkCompany ⟨[⟨1, false, 100, 5, OrderType.stop, some 90⟩],
    [⟨2, false, 95, 5, OrderType.stop, some 100⟩]⟩

/-- Sample instrument with a crossed book: buy 3 at 102, sell 5 at 100. -/
def crossCompany : Company :=
  mkCompany ⟨[⟨1, false, 102, 3, OrderType.limit, none⟩],
    [⟨2, false, 100, 5, OrderType.limit, none⟩]⟩

/-- Sample actor store: a buyer with ample funds and a seller holding 5
units of the instrument. -/
def demoActors : ActorsT :=
  [(⟨1, false⟩, ⟨10000, [("AEEN", 0)]⟩), (⟨2, false⟩, ⟨100, [("AEEN", 5)]⟩)]

/-- Sample actor store where actor 2 has an explicit zero holding of the
instrument while a sell order of theirs rests in the book. -/
def brokeActors : ActorsT :=
  [(⟨1, false⟩, ⟨1000, []⟩), (⟨2, false⟩, ⟨0, [("AEEN", 0)]⟩)]

/-- Crossing-loop state whose heads cross but whose buyer can afford
nothing, so the clamped deal amount is `0`. -/
def zeroDealState : MState :=
  ⟨[⟨1, false, 10, 5, OrderType.limit, none⟩], [⟨2, false, 10, 5, OrderType.limit, none⟩],
    [(⟨1, false⟩, ⟨0, []⟩), (⟨2, false⟩, ⟨0, [("AEEN", 5)]⟩)], 100, 0, [], []⟩


theorem alookup_nil {α β : Type} [BEq α] (k : α) :
    alookup ([] : List (α × β)) k = none := rfl

theorem alookup_cons_pos {α β : Type} [BEq α] (p : α × β) (l : List (α × β)) (k : α)
    (h : (p.1 == k) = true) : alookup (p :: l) k = some p.2 := by
  unfold alookup
  rw [List.find?_cons_of_pos l (show ((fun q : α × β => q.1 == k) p) = true from h)]
  rfl

theorem alookup_cons_neg {α β : Type} [BEq α] (p : α × β) (l : List (α × β)) (k : α)
    (h : (p.1 == k) = false) : alookup (p :: l) k = alookup l k := by
  unfold alookup
  rw [List.find?_cons_of_neg l
    (show ¬ ((fun q : α × β => q.1 == k) p) = true from by simp [h])]

theorem alookup_map_set {α β : Type} [BEq α] (k : α) (v : β) :
    ∀ l : List (α × β), (l.find? (fun p => p.1 == k)).isSome →
      alookup (l.map (fun p => if p.1 == k then (p.1, v) else p)) k = some v := by
  intro l
  induction l with
  | nil => intro h; simp at h
  | cons p tl ih =>
    intro h
    by_cases hp : (p.1 == k) = true
    · rw [List.map_cons, if_pos hp]
      exact alookup_cons_pos _ _ _ hp
    · rw [Bool.not_eq_true] at hp
      have h2 : (List.find? (fun q : α × β => q.1 == k) tl).isSome = true := by
        rw [List.find?_cons] at h
        simpa [hp] using h
      rw [List.map_cons, if_neg (by simp [hp]), alookup_cons_neg _ _ _ hp]
      exact ih h2

theorem alookup_append_single {α β : Type} [BEq α] [LawfulBEq α] (k : α) (v : β) :
    ∀ l : List (α × β), l.find? (fun p => p.1 == k) = none →
      alookup (l ++ [(k, v)]) k = some v := by
  intro l
  induction l with
  | nil => intro _; exact alookup_cons_pos (k, v) [] k (by simp)
  | cons p tl ih =>
    intro h
    rw [List.find?_cons] at h
    match hp : (p.1 == k) with
    | true => rw [hp] at h; exact absurd h (by simp)
    | false =>
      rw [hp] at h
      rw [List.cons_append, alookup_cons_neg _ _ _ hp]
      exact ih h

theorem alookup_aset_self {α β : Type} [BEq α] [LawfulBEq α]
    (l : List (α × β)) (k : α) (v : β) : alookup (aset l k v) k = some v := by
  unfold aset
  by_cases hf : (l.find? (fun p => p.1 == k)).isSome
  · rw [if_pos hf]
    exact alookup_map_set k v l hf
  · rw [if_neg hf]
    rw [Option.isSome_iff_exists] at hf
    push_neg at hf
    have : l.find? (fun p => p.1 == k) = none := by
      cases hx : l.find? (fun p => p.1 == k) with
      | none => rfl
      | some q => exact absurd hx (hf q)
    exact alookup_append_single k v l this

theorem alookup_map_set_ne {α β : Type} [BEq α] [LawfulBEq α] (k k2 : α) (v : β)
    (h : ¬ k2 = k) :
    ∀ l : List (α × β),
      alookup (l.map (fun p => if p.1 == k then (p.1, v) else p)) k2 = alookup l k2 := by
  intro l
  induction l with
  | nil => rfl
  | cons p tl ih =>
    by_cases hp : (p.1 == k) = true
    · have hpk : p.1 = k := by simpa using hp
      have hp2 : (p.1 == k2) = false := by
        simp only [beq_eq_false_iff_ne, ne_eq, hpk]
        exact fun hh => h hh.symm
      rw [List.map_cons, if_pos hp, alookup_cons_neg _ _ _ (by simpa using hp2),
        alookup_cons_neg _ _ _ hp2]
      exact ih
    · rw [Bool.not_eq_true] at hp
      rw [List.map_cons, if_neg (by simp [hp])]
      by_cases hp2 : (p.1 == k2) = true
      · rw [alookup_cons_pos _ _ _ hp2, alookup_cons_pos _ _ _ hp2]
      · rw [Bool.not_eq_true] at hp2
        rw [alookup_cons_neg _ _ _ hp2, alookup_cons_neg _ _ _ hp2]
        exact ih

theorem alookup_append_single_ne {α β : Type} [BEq α] [LawfulBEq α] (k k2 : α) (v : β)
    (h : ¬ k2 = k) :
    ∀ l : List (α × β), alookup (l ++ [(k, v)]) k2 = alookup l k2 := by
  intro l
  induction l with
  | nil =>
    have hkk : ((k, v).1 == k2) = false := by
      simp only [beq_eq_false_iff_ne, ne_eq]
      exact fun hh => h hh.symm
    rw [List.nil_append, alookup_cons_neg (k, v) [] k2 hkk]
  | cons p tl ih =>
    by_cases hp2 : (p.1 == k2) = true
    · rw [List.cons_append, alookup_cons_pos _ _ _ hp2, alookup_cons_pos _ _ _ hp2]
    · rw [Bool.not_eq_true] at hp2
      rw [List.cons_append, alookup_cons_neg _ _ _ hp2, alookup_cons_neg _ _ _ hp2]
      exact ih

theorem alookup_aset_ne {α β : Type} [BEq α] [LawfulBEq α]
    (l : List (α × β)) (k k2 : α) (v : β) (h : ¬ k2 = k) :
    alookup (aset l k v) k2 = alookup l k2 := by
  unfold aset
  by_cases hf : (l.find? (fun p => p.1 == k)).isSome
  · rw [if_pos hf]
    exact alookup_map_set_ne k k2 v h l
  · rw [if_neg hf]
    exact alookup_append_single_ne k k2 v h l

theorem getH_setH_self (h : List (String × ℚ)) (sym : String) (v : ℚ) :
    getH (setH h sym v) sym = v := by
  simp [getH, setH, alookup_aset_self]

theorem getH_setH_ne (h : List (String × ℚ)) (sym sym2 : String) (v : ℚ) (hne : ¬ sym2 = sym) :
    getH (setH h sym v) sym2 = getH h sym2 := by
  simp [getH, setH, alookup_aset_ne _ _ _ _ hne]

theorem getActor_setActor_self (actors : ActorsT) (k : ActorKey) (a : Actor) :
    getActor (setActor actors k a) k = some a := by
  simp [getActor, setActor, alookup_aset_self]

theorem getActor_setActor_ne (actors : ActorsT) (k k2 : ActorKey) (a : Actor) (h : ¬ k2 = k) :
    getActor (setActor actors k a) k2 = getActor actors k2 := by
  simp [getActor, setActor, alookup_aset_ne _ _ _ _ h]

theorem atPrice_cons (k : ℚ) (o : Order) (l : List Order) :
    atPrice k (o :: l) = if o.price = k then o :: atPrice k l else atPrice k l := by
  by_cases h : o.price = k <;> simp [atPrice, List.filter_cons, h]

theorem atPrice_orderedInsert (k : ℚ) (x : Order) :
    ∀ l : List Order, atPrice k (l.orderedInsert buyLE x) =
      if x.price = k then x :: atPrice k l else atPrice k l := by
  intro l
  induction l with
  | nil =>
    rw [List.orderedInsert_nil, atPrice_cons]
  | cons b l ih =>
    by_cases hxb : buyLE x b
    · rw [List.orderedInsert_of_le buyLE _ hxb, atPrice_cons, atPrice_cons]
    · have hlt : x.price < b.price := lt_of_not_le hxb
      have h1 : List.orderedInsert buyLE x (b :: l) = b :: List.orderedInsert buyLE x l := by
        simp only [List.orderedInsert, if_neg hxb]
      rw [h1, atPrice_cons, atPrice_cons, ih]
      by_cases hbk : b.price = k
      · have hxk : ¬ x.price = k := fun h => absurd hbk (ne_of_gt (h ▸ hlt))
        simp [hbk, hxk]
      · simp [hbk]

theorem atPrice_sortBuy (k : ℚ) : ∀ l : List Order, atPrice k (sortBuy l) = atPrice k l := by
  intro l
  induction l with
  | nil => rfl
  | cons a l ih =>
    show atPrice k (List.orderedInsert buyLE a (sortBuy l)) = _
    rw [atPrice_orderedInsert, atPrice_cons, ih]

theorem atPrice_orderedInsert_sell (k : ℚ) (x : Order) :
    ∀ l : List Order, atPrice k (l.orderedInsert sellLE x) =
      if x.price = k then x :: atPrice k l else atPrice k l := by
  intro l
  induction l with
  | nil =>
    rw [List.orderedInsert_nil, atPrice_cons]
  | cons b l ih =>
    by_cases hxb : sellLE x b
    · rw [List.orderedInsert_of_le sellLE _ hxb, atPrice_cons, atPrice_cons]
    · have hlt : b.price < x.price := lt_of_not_le hxb
      have h1 : List.orderedInsert sellLE x (b :: l) = b :: List.orderedInsert sellLE x l := by
        simp only [List.orderedInsert, if_neg hxb]
      rw [h1, atPrice_cons, atPrice_cons, ih]
      by_cases hbk : b.price = k
      · have hxk : ¬ x.price = k := fun h => absurd hbk (ne_of_lt (h ▸ hlt))
        simp [hbk, hxk]
      · simp [hbk]

theorem atPrice_sortSell (k : ℚ) : ∀ l : List Order, atPrice k (sortSell l) = atPrice k l := by
  intro l
  induction l with
  | nil => rfl
  | cons a l ih =>
    show atPrice k (List.orderedInsert sellLE a (sortSell l)) = _
    rw [atPrice_orderedInsert_sell, atPrice_cons, ih]


theorem forall2_mapIdx {α β : Type} (P : β → α → Prop) :
    ∀ (l : List α) (f : ℕ → α → β), (∀ i a, P (f i a) a) → List.Forall₂ P (l.mapIdx f) l := by
  intro l
  induction l with
  | nil => intro f _; simp
  | cons a tl ih =>
    intro f h
    rw [List.mapIdx_cons]
    exact List.Forall₂.cons (h 0 a) (ih (fun i => f (i + 1)) (fun i b => h (i + 1) b))

/-- C10: a single `marketTick` invocation mutates only each instrument's
`price` and `lastUpdated`: every instrument's order book, cumulative volume,
symbol, shares outstanding, fundamentals and volatility are unchanged, and
the actor ledger and the market document are untouched. -/
theorem C10_marketTick_frame (z : ℕ → ℚ) (t : ℕ) (w : World) :
    (marketTick z t w).actors = w.actors ∧
    (marketTick z t w).market = w.market ∧
    List.Forall₂ (fun c2 c => c2.symbol = c.symbol ∧ c2.volume = c.volume ∧
      c2.orderBook = c.orderBook ∧ c2.sharesOutstanding = c.sharesOutstanding ∧
      c2.fundamentals = c.fundamentals ∧ c2.volatility = c.volatility)
      (marketTick z t w).companies w.companies := by
  refine ⟨rfl, rfl, ?_⟩
  exact forall2_mapIdx _ w.companies _ (fun i c => ⟨rfl, rfl, rfl, rfl, rfl, rfl⟩)

/-- C1, counterexample: the specification's own scenario (price 100, one
resting sell limit of 5 at 100, incoming market buy of 10, buyer balance
10000).  After submit returns, the order book is empty: 5 units traded
(volume rose by 5 and the buyer paid 500), but the unfilled remainder of 5
was *not* converted to a resting limit order - `addOrderToBook` discards the
remainder that `executeMarketBuy` returns. -/
theorem C1_counterexample :
    (placeOrder 1 restingSellCompany demoActors Side.buy OrderType.market 0 10 none 10).company.orderBook
      = ⟨[], []⟩ ∧
    (placeOrder 1 restingSellCompany demoActors Side.buy OrderType.market 0 10 none 10).company.volume
      = 5 ∧
    getActor (placeOrder 1 restingSellCompany demoActors Side.buy OrderType.market 0 10 none 10).actors
      ⟨1, false⟩ = some ⟨9500, [("AEEN", 5)]⟩ := by
  norm_num [placeOrder, addOrderToBook, executeMarketBuy, matchCompanyOrders, stopBuyPass,
    stopSellPass, crossLoop, restingSellCompany, demoActors, mkCompany, walkBuy, sortSell,
    sortBuy, triggersBuy, triggersSell, clamp, maxSafeInteger, getActor, setActor, getH, setH,
    alookup, aset, List.insertionSort, List.orderedInsert, List.find?, beq_eq_decide,
    ActorKey.mk.injEq, Prod.mk.injEq]

/-- C1, amended: the unfilled remainder of a market order is *returned* by
`executeMarketBuy` / `executeMarketSell` but this hard-stop remainder is
discarded by `addOrderToBook`; no resting limit order is created.  Against an
empty opposite book a market order performs zero fills and leaves the
company, the ledger and the book exactly unchanged. -/
theorem C1_market_remainder_discarded (aid : Nat) (npc : Bool) (c : Company)
    (actors : ActorsT) (price amount : ℚ) (sp : Option ℚ) :
    (c.orderBook.sell = [] →
      (executeMarketBuy aid npc c actors amount).remaining = amount ∧
      (executeMarketBuy aid npc c actors amount).fills = [] ∧
      (executeMarketBuy aid npc c actors amount).company = c ∧
      (executeMarketBuy aid npc c actors amount).actors = actors ∧
      addOrderToBook aid npc c actors Side.buy OrderType.market price amount sp = (c, actors)) ∧
    (c.orderBook.buy = [] →
      (executeMarketSell aid npc c actors amount).remaining = amount ∧
      (executeMarketSell aid npc c actors amount).fills = [] ∧
      (executeMarketSell aid npc c actors amount).company = c ∧
      (executeMarketSell aid npc c actors amount).actors = actors ∧
      addOrderToBook aid npc c actors Side.sell OrderType.market price amount sp = (c, actors)) := by
  obtain ⟨sym, p, v, so, f, vol, ⟨bb, bs⟩, lu⟩ := c
  constructor
  · intro h
    simp only at h
    subst h
    exact ⟨rfl, rfl, rfl, rfl, rfl⟩
  · intro h
    simp only at h
    subst h
    exact ⟨rfl, rfl, rfl, rfl, rfl⟩

/-- C1, witness for the amended theorem, at an empty book. -/
theorem C1_witness :
    emptyCompany.orderBook.sell = [] ∧
    (executeMarketBuy 1 false emptyCompany demoActors 5).remaining = 5 ∧
    (executeMarketBuy 1 false emptyCompany demoActors 5).company = emptyCompany ∧
    addOrderToBook 1 false emptyCompany demoActors Side.buy OrderType.market 0 5 none
      = (emptyCompany, demoActors) :=
  ⟨rfl,
    ((C1_market_remainder_discarded 1 false emptyCompany demoActors 0 5 none).1 rfl).1,
    ((C1_market_remainder_discarded 1 false emptyCompany demoActors 0 5 none).1 rfl).2.2.1,
    ((C1_market_remainder_discarded 1 false emptyCompany demoActors 0 5 none).1 rfl).2.2.2.2⟩

/-- C3, counterexample: the `placeOrder` handler performs no validation of
quantity or price.  A limit buy of quantity 0, and one of quantity -3, are
both inserted into the book and survive the matching pass - contradicting
"rejected at submission, never enqueued". -/
theorem C3_counterexample :
    (placeOrder 1 emptyCompany demoActors Side.buy OrderType.limit 10 0 none 10).company.orderBook.buy
      = [⟨1, false, 10, 0, OrderType.limit, none⟩] ∧
    (placeOrder 1 emptyCompany demoActors Side.buy OrderType.limit 10 (-3) none 10).company.orderBook.buy
      = [⟨1, false, 10, -3, OrderType.limit, none⟩] := by
  norm_num [placeOrder, addOrderToBook, matchCompanyOrders, stopBuyPass, stopSellPass,
    crossLoop, emptyCompany, demoActors, mkCompany, sortOrderBook, sortBuy, sortSell,
    triggersBuy, triggersSell, clamp, maxSafeInteger, List.insertionSort, List.orderedInsert,
    beq_eq_decide]

/-- C3, amended: submission performs no quantity or price validation (the
only caller-level rejection is an unknown symbol).  A limit or stop order
with non-positive quantity or non-positive price is inserted into its side
of the book exactly like any other order. -/
theorem C3_no_validation (aid : Nat) (npc : Bool) (c : Company) (actors : ActorsT)
    (price amount : ℚ) (sp : Option ℚ) (type : OrderType)
    (htype : type = OrderType.limit ∨ type = OrderType.stop)
    (hbad : amount ≤ 0 ∨ price ≤ 0) :
    (⟨aid, npc, price, amount, type, sp⟩ : Order) ∈
      (addOrderToBook aid npc c actors Side.buy type price amount sp).1.orderBook.buy ∧
    (⟨aid, npc, price, amount, type, sp⟩ : Order) ∈
      (addOrderToBook aid npc c actors Side.sell type price amount sp).1.orderBook.sell := by
  have hmem : ∀ (l : List Order) (entry : Order), entry ∈ sortBuy (l ++ [entry]) := by
    intro l entry
    show entry ∈ List.insertionSort buyLE (l ++ [entry])
    rw [(List.perm_insertionSort buyLE (l ++ [entry])).mem_iff]
    exact List.mem_append_right l (List.mem_singleton.mpr rfl)
  have hmem2 : ∀ (l : List Order) (entry : Order), entry ∈ sortSell (l ++ [entry]) := by
    intro l entry
    show entry ∈ List.insertionSort sellLE (l ++ [entry])
    rw [(List.perm_insertionSort sellLE (l ++ [entry])).mem_iff]
    exact List.mem_append_right l (List.mem_singleton.mpr rfl)
  rcases htype with h | h <;> subst h
  · exact ⟨hmem _ _, hmem2 _ _⟩
  · exact ⟨hmem _ _, hmem2 _ _⟩

/-- C3, witness for the amended theorem: a zero-quantity limit order is
inserted, not rejected. -/
theorem C3_witness :
    ((0 : ℚ) ≤ 0 ∨ (10 : ℚ) ≤ 0) ∧
    (⟨1, false, 10, 0, OrderType.limit, none⟩ : Order) ∈
      (addOrderToBook 1 false emptyCompany demoActors Side.buy OrderType.limit 10 0 none).1.orderBook.buy :=
  ⟨Or.inl le_rfl,
    (C3_no_validation 1 false emptyCompany demoActors 10 0 none OrderType.limit
      (Or.inl rfl) (Or.inl le_rfl)).1⟩

/-- C9: in the crossing loop, when the best bid and best ask cross but the
clamped `dealAmount` is `0`, *both* head orders are removed and the loop
continues on the remaining book; no trade, ledger change, price change or
volume change is produced for that pair. -/
theorem C9_zero_deal_drops_both_heads (sym : String) (fuel : ℕ) (s : MState)
    (bo so : Order) (btl stl : List Order)
    (hb : s.buy = bo :: btl) (hs : s.sell = so :: stl)
    (hcross : so.price ≤ bo.price)
    (hzero : computeDeal sym s.actors bo so = 0) :
    crossLoop sym (fuel + 1) s = crossLoop sym fuel { s with buy := btl, sell := stl } := by
  obtain ⟨b, sl, a, lp, v, t, cf⟩ := s
  simp only at hb hs
  subst hb
  subst hs
  simp only [crossLoop, hzero, if_pos hcross, le_refl, if_true]

/-- C9, witness: a concrete crossed book whose buyer can afford nothing. -/
theorem C9_witness :
    computeDeal "AEEN" zeroDealState.actors
      ⟨1, false, 10, 5, OrderType.limit, none⟩ ⟨2, false, 10, 5, OrderType.limit, none⟩ = 0 ∧
    crossLoop "AEEN" 4 zeroDealState = crossLoop "AEEN" 3 { zeroDealState with buy := [], sell := [] } := by
  have hz : computeDeal "AEEN" zeroDealState.actors
      ⟨1, false, 10, 5, OrderType.limit, none⟩ ⟨2, false, 10, 5, OrderType.limit, none⟩ = 0 := by
    simp only [computeDeal, zeroDealState, getActor, getH, alookup, List.find?, beq_eq_decide,
      ActorKey.mk.injEq, Prod.mk.injEq]
    norm_num
    simp
  exact ⟨hz, C9_zero_deal_drops_both_heads "AEEN" 3 zeroDealState _ _ [] [] rfl rfl
    (by norm_num) hz⟩


/-- C6: when the incoming actor of a market-order walk cannot cover the
current level - a market buy whose buyer cannot pay `dealAmount * price`, or
a market sell whose seller does not hold `dealAmount` units - the walk
terminates at that level: no trade is applied there, no deeper level is
visited, and book, ledger, price, volume and the unfilled remainder are all
left exactly as they were. -/
theorem C6_walk_hard_stop (sym : String) (aid : Nat) (npc : Bool) (actors : ActorsT)
    (price volume : ℚ) (o : Order) (rest : List Order) (remaining : ℚ)
    (hrem : 0 < remaining) :
    (∀ buyer : Actor, getActor actors ⟨aid, npc⟩ = some buyer →
      buyer.balance < min o.amount remaining * o.price →
      walkBuy sym aid npc actors price volume (o :: rest) remaining =
        ⟨actors, o :: rest, price, volume, remaining, []⟩) ∧
    (∀ seller : Actor, getActor actors ⟨aid, npc⟩ = some seller →
      getH seller.holdings sym < min o.amount remaining →
      walkSell sym aid npc actors price volume (o :: rest) remaining =
        ⟨actors, o :: rest, price, volume, remaining, []⟩) := by
  constructor
  · intro buyer hget hlt
    simp only [walkBuy, if_neg (not_le.mpr hrem), hget, if_pos hlt]
  · intro seller hget hlt
    simp only [walkSell, if_neg (not_le.mpr hrem), hget, if_pos hlt]

/-- C6, witness: a buyer with balance 1000 facing a level costing 5000. -/
theorem C6_witness :
    (0 : ℚ) < 5 ∧
    getActor brokeActors ⟨1, false⟩ = some ⟨1000, []⟩ ∧
    (⟨1000, []⟩ : Actor).balance < min (5 : ℚ) 5 * 1000 ∧
    walkBuy "AEEN" 1 false brokeActors 100 0 [⟨2, false, 1000, 5, OrderType.limit, none⟩] 5 =
      ⟨brokeActors, [⟨2, false, 1000, 5, OrderType.limit, none⟩], 100, 0, 5, []⟩ := by
  refine ⟨by norm_num, rfl, by norm_num, ?_⟩
  exact (C6_walk_hard_stop "AEEN" 1 false brokeActors 100 0
      ⟨2, false, 1000, 5, OrderType.limit, none⟩ [] 5 (by norm_num)).1
    ⟨1000, []⟩ rfl (by norm_num)

theorem clamp_le_bounds (v : ℚ) : (0.9 : ℚ) ≤ clamp v 0.9 1.1 ∧ clamp v 0.9 1.1 ≤ 1.1 := by
  unfold clamp
  exact ⟨le_max_left _ _, max_le (by norm_num) (min_le_left _ _)⟩

theorem floorClamp_bounds (p n0 : ℚ) (hp : 1 ≤ p) :
    0.9 * p ≤ (if p * clamp (n0 / p) 0.9 1.1 < 1 then 1 else p * clamp (n0 / p) 0.9 1.1) ∧
    (if p * clamp (n0 / p) 0.9 1.1 < 1 then 1 else p * clamp (n0 / p) 0.9 1.1) ≤ 1.1 * p ∧
    (1 : ℚ) ≤ (if p * clamp (n0 / p) 0.9 1.1 < 1 then 1 else p * clamp (n0 / p) 0.9 1.1) := by
  have hcl := (clamp_le_bounds (n0 / p)).1
  have hcr := (clamp_le_bounds (n0 / p)).2
  have h1 : 0.9 * p ≤ p * clamp (n0 / p) 0.9 1.1 := by nlinarith
  have h2 : p * clamp (n0 / p) 0.9 1.1 ≤ 1.1 * p := by nlinarith
  by_cases hlt : p * clamp (n0 / p) 0.9 1.1 < 1
  · rw [if_pos hlt]
    refine ⟨by linarith, by nlinarith, le_refl 1⟩
  · rw [if_neg hlt]
    exact ⟨h1, h2, by linarith [not_lt.mp hlt]⟩

theorem round4_ge_one (x : ℚ) (hx : 1 ≤ x) : 1 ≤ round4 x := by
  unfold round4
  rw [le_div_iff (by norm_num : (0 : ℚ) < 10000), one_mul]
  have h : (10000 : ℤ) ≤ round (x * 10000) := by
    rw [round_eq, Int.le_floor]
    push_cast
    nlinarith
  exact_mod_cast h

/-- C7: for every instrument, every interest rate and every outcome of the
noise draw, the pre-rounding price of one `marketTick` iteration lies in the
relative band `[0.9 * priceBefore, 1.1 * priceBefore]` after the clamp and is
at least the floor of `1`; the written price is exactly that value rounded to
4 decimal places and itself never drops below `1` (given the invariant
`1 ≤ priceBefore`, which the engine maintains by clamping every written
price to at least `1`). -/
theorem C7_marketTick_price_bounds (interestRate z : ℚ) (t : ℕ) (c : Company)
    (hp : 1 ≤ c.price) :
    (marketTickCompany interestRate z t c).price
      = round4 (marketTickClampedPrice interestRate z c) ∧
    0.9 * c.price ≤ marketTickClampedPrice interestRate z c ∧
    marketTickClampedPrice interestRate z c ≤ 1.1 * c.price ∧
    1 ≤ marketTickClampedPrice interestRate z c ∧
    1 ≤ (marketTickCompany interestRate z t c).price := by
  have h := floorClamp_bounds c.price
    (c.price * (1 + 0.6 * computeImbalance c * 0.02)
      * (1 + 0.0005 * ((c.fundamentals.profit + 0.6 * c.fundamentals.revenue
          + 0.4 * c.fundamentals.rnd) / max 1 (c.sharesOutstanding / 1000) - 1))
      * (1 - (jsOr interestRate 1 - 1) * 0.08)
      * (1 + z * jsOr c.volatility 0.02 * (1 + jsOr c.volume 0 / 20000) * 0.5)) hp
  have hform : marketTickClampedPrice interestRate z c
      = (if c.price * clamp ((c.price * (1 + 0.6 * computeImbalance c * 0.02)
          * (1 + 0.0005 * ((c.fundamentals.profit + 0.6 * c.fundamentals.revenue
              + 0.4 * c.fundamentals.rnd) / max 1 (c.sharesOutstanding / 1000) - 1))
          * (1 - (jsOr interestRate 1 - 1) * 0.08)
          * (1 + z * jsOr c.volatility 0.02 * (1 + jsOr c.volume 0 / 20000) * 0.5)) / c.price)
          0.9 1.1 < 1 then 1
        else c.price * clamp ((c.price * (1 + 0.6 * computeImbalance c * 0.02)
          * (1 + 0.0005 * ((c.fundamentals.profit + 0.6 * c.fundamentals.revenue
              + 0.4 * c.fundamentals.rnd) / max 1 (c.sharesOutstanding / 1000) - 1))
          * (1 - (jsOr interestRate 1 - 1) * 0.08)
          * (1 + z * jsOr c.volatility 0.02 * (1 + jsOr c.volume 0 / 20000) * 0.5)) / c.price)
          0.9 1.1) := rfl
  rw [← hform] at h
  refine ⟨rfl, h.1, h.2.1, h.2.2, ?_⟩
  exact round4_ge_one _ h.2.2

/-- C7, witness at the sample instrument (price 100), zero noise, unit
interest rate. -/
theorem C7_witness :
    (1 : ℚ) ≤ emptyCompany.price ∧
    0.9 * emptyCompany.price ≤ marketTickClampedPrice 1 0 emptyCompany ∧
    marketTickClampedPrice 1 0 emptyCompany ≤ 1.1 * emptyCompany.price ∧
    1 ≤ (marketTickCompany 1 0 0 emptyCompany).price := by
  have h := C7_marketTick_price_bounds 1 0 0 emptyCompany
    (by norm_num [emptyCompany, mkCompany])
  exact ⟨by norm_num [emptyCompany, mkCompany], h.2.1, h.2.2.1, h.2.2.2.2⟩


theorem walkBuy_buyer_balance (sym : String) (aid : Nat) (npc : Bool) :
    ∀ (sells : List Order) (actors : ActorsT) (price volume remaining : ℚ),
      (∀ b, getActor actors ⟨aid, npc⟩ = some b → 0 ≤ b.balance) →
      ∀ b2, getActor (walkBuy sym aid npc actors price volume sells remaining).actors ⟨aid, npc⟩
          = some b2 →
        0 ≤ b2.balance := by
  intro sells
  induction sells with
  | nil =>
    intro actors price volume remaining hinv b2 hget
    simp only [walkBuy] at hget
    exact hinv b2 hget
  | cons o rest ih =>
    intro actors price volume remaining hinv b2 hget
    by_cases hr : remaining ≤ 0
    · simp only [walkBuy, if_pos hr] at hget
      exact hinv b2 hget
    · rcases hA : getActor actors ⟨aid, npc⟩ with _ | buyer
      · simp only [walkBuy, if_neg hr, hA] at hget
        exact Option.noConfusion hget
      · by_cases hc : buyer.balance < min o.amount remaining * o.price
        · simp only [walkBuy, if_neg hr, hA, if_pos hc] at hget
          obtain rfl : buyer = b2 := Option.some.inj hget
          exact hinv buyer hA
        · have hb0 : 0 ≤ buyer.balance := hinv buyer hA
          have hble : min o.amount remaining * o.price ≤ buyer.balance := not_lt.mp hc
          -- the ledger state after this level
          by_cases hk : (⟨o.actorId, o.isNPC⟩ : ActorKey) = ⟨aid, npc⟩
          · -- self-trade: the stale debit is restored by the seller credit
            have hS1 : getActor (setActor actors ⟨aid, npc⟩
                ⟨buyer.balance - min o.amount remaining * o.price,
                  setH buyer.holdings sym (getH buyer.holdings sym + min o.amount remaining)⟩)
                ⟨o.actorId, o.isNPC⟩
                = some ⟨buyer.balance - min o.amount remaining * o.price,
                  setH buyer.holdings sym (getH buyer.holdings sym + min o.amount remaining)⟩ := by
              rw [hk]
              exact getActor_setActor_self _ _ _
            simp only [walkBuy, if_neg hr, hA, if_neg hc, hS1] at hget
            have hinv2 : ∀ b, getActor (setActor (setActor actors ⟨aid, npc⟩
                ⟨buyer.balance - min o.amount remaining * o.price,
                  setH buyer.holdings sym (getH buyer.holdings sym + min o.amount remaining)⟩)
                ⟨o.actorId, o.isNPC⟩
                ⟨buyer.balance - min o.amount remaining * o.price
                    + min o.amount remaining * o.price,
                  setH (setH buyer.holdings sym (getH buyer.holdings sym + min o.amount remaining))
                    sym
                    (getH (setH buyer.holdings sym (getH buyer.holdings sym + min o.amount remaining))
                      sym - min o.amount remaining)⟩) ⟨aid, npc⟩ = some b → 0 ≤ b.balance := by
              intro b hb
              rw [← hk, getActor_setActor_self] at hb
              cases hb
              simpa using hb0
            split at hget <;> exact ih _ _ _ _ hinv2 b2 hget
          · -- distinct resting seller: the buyer keeps the debited balance
            have hS0 : getActor (setActor actors ⟨aid, npc⟩
                ⟨buyer.balance - min o.amount remaining * o.price,
                  setH buyer.holdings sym (getH buyer.holdings sym + min o.amount remaining)⟩)
                ⟨o.actorId, o.isNPC⟩ = getActor actors ⟨o.actorId, o.isNPC⟩ :=
              getActor_setActor_ne _ _ _ _ hk
            have hbuy1 : getActor (setActor actors ⟨aid, npc⟩
                ⟨buyer.balance - min o.amount remaining * o.price,
                  setH buyer.holdings sym (getH buyer.holdings sym + min o.amount remaining)⟩)
                ⟨aid, npc⟩
                = some ⟨buyer.balance - min o.amount remaining * o.price,
                  setH buyer.holdings sym (getH buyer.holdings sym + min o.amount remaining)⟩ :=
              getActor_setActor_self _ _ _
            rcases hS : getActor actors ⟨o.actorId, o.isNPC⟩ with _ | seller
            · rw [hS] at hS0
              simp only [walkBuy, if_neg hr, hA, if_neg hc, hS0] at hget
              have hinv2 : ∀ b, getActor (setActor actors ⟨aid, npc⟩
                  ⟨buyer.balance - min o.amount remaining * o.price,
                    setH buyer.holdings sym (getH buyer.holdings sym + min o.amount remaining)⟩)
                  ⟨aid, npc⟩ = some b → 0 ≤ b.balance := by
                intro b hb
                rw [hbuy1] at hb
                cases hb
                simpa using sub_nonneg.mpr hble
              split at hget <;> exact ih _ _ _ _ hinv2 b2 hget
            · rw [hS] at hS0
              simp only [walkBuy, if_neg hr, hA, if_neg hc, hS0] at hget
              have hinv2 : ∀ b, getActor (setActor (setActor actors ⟨aid, npc⟩
                  ⟨buyer.balance - min o.amount remaining * o.price,
                    setH buyer.holdings sym (getH buyer.holdings sym + min o.amount remaining)⟩)
                  ⟨o.actorId, o.isNPC⟩
                  ⟨seller.balance + min o.amount remaining * o.price,
                    setH seller.holdings sym (getH seller.holdings sym - min o.amount remaining)⟩)
                  ⟨aid, npc⟩ = some b → 0 ≤ b.balance := by
                intro b hb
                rw [getActor_setActor_ne _ _ _ _ (fun hh => hk hh.symm), hbuy1] at hb
                cases hb
                simpa using sub_nonneg.mpr hble
              split at hget <;> exact ih _ _ _ _ hinv2 b2 hget


theorem walkSell_seller_holdings (sym : String) (aid : Nat) (npc : Bool) :
    ∀ (buys : List Order) (actors : ActorsT) (price volume remaining : ℚ),
      (∀ se, getActor actors ⟨aid, npc⟩ = some se → 0 ≤ getH se.holdings sym) →
      ∀ s2, getActor (walkSell sym aid npc actors price volume buys remaining).actors ⟨aid, npc⟩
          = some s2 →
        0 ≤ getH s2.holdings sym := by
  intro buys
  induction buys with
  | nil =>
    intro actors price volume remaining hinv s2 hget
    simp only [walkSell] at hget
    exact hinv s2 hget
  | cons o rest ih =>
    intro actors price volume remaining hinv s2 hget
    by_cases hr : remaining ≤ 0
    · simp only [walkSell, if_pos hr] at hget
      exact hinv s2 hget
    · rcases hA : getActor actors ⟨aid, npc⟩ with _ | seller
      · simp only [walkSell, if_neg hr, hA] at hget
        exact Option.noConfusion hget
      · by_cases hc : getH seller.holdings sym < min o.amount remaining
        · simp only [walkSell, if_neg hr, hA, if_pos hc] at hget
          obtain rfl : seller = s2 := Option.some.inj hget
          exact hinv seller hA
        · have hs0 : 0 ≤ getH seller.holdings sym := hinv seller hA
          have hsge : min o.amount remaining ≤ getH seller.holdings sym := not_lt.mp hc
          by_cases hk : (⟨o.actorId, o.isNPC⟩ : ActorKey) = ⟨aid, npc⟩
          · have hS1 : getActor (setActor actors ⟨aid, npc⟩
                ⟨seller.balance + min o.amount remaining * o.price,
                  setH seller.holdings sym (getH seller.holdings sym - min o.amount remaining)⟩)
                ⟨o.actorId, o.isNPC⟩
                = some ⟨seller.balance + min o.amount remaining * o.price,
                  setH seller.holdings sym (getH seller.holdings sym - min o.amount remaining)⟩ := by
              rw [hk]
              exact getActor_setActor_self _ _ _
            simp only [walkSell, if_neg hr, hA, if_neg hc, hS1] at hget
            have hinv2 : ∀ b, getActor (setActor (setActor actors ⟨aid, npc⟩
                ⟨seller.balance + min o.amount remaining * o.price,
                  setH seller.holdings sym (getH seller.holdings sym - min o.amount remaining)⟩)
                ⟨o.actorId, o.isNPC⟩
                ⟨seller.balance + min o.amount remaining * o.price
                    - min o.amount remaining * o.price,
                  setH (setH seller.holdings sym (getH seller.holdings sym - min o.amount remaining))
                    sym
                    (getH (setH seller.holdings sym
                        (getH seller.holdings sym - min o.amount remaining)) sym
                      + min o.amount remaining)⟩) ⟨aid, npc⟩ = some b →
                0 ≤ getH b.holdings sym := by
              intro b hb
              rw [← hk, getActor_setActor_self] at hb
              cases hb
              simp only [getH_setH_self]
              linarith
            split at hget <;> exact ih _ _ _ _ hinv2 s2 hget
          · have hS0 : getActor (setActor actors ⟨aid, npc⟩
                ⟨seller.balance + min o.amount remaining * o.price,
                  setH seller.holdings sym (getH seller.holdings sym - min o.amount remaining)⟩)
                ⟨o.actorId, o.isNPC⟩ = getActor actors ⟨o.actorId, o.isNPC⟩ :=
              getActor_setActor_ne _ _ _ _ hk
            have hsell1 : getActor (setActor actors ⟨aid, npc⟩
                ⟨seller.balance + min o.amount remaining * o.price,
                  setH seller.holdings sym (getH seller.holdings sym - min o.amount remaining)⟩)
                ⟨aid, npc⟩
                = some ⟨seller.balance + min o.amount remaining * o.price,
                  setH seller.holdings sym (getH seller.holdings sym - min o.amount remaining)⟩ :=
              getActor_setActor_self _ _ _
            rcases hS : getActor actors ⟨o.actorId, o.isNPC⟩ with _ | buyer
            · rw [hS] at hS0
              simp only [walkSell, if_neg hr, hA, if_neg hc, hS0] at hget
              have hinv2 : ∀ b, getActor (setActor actors ⟨aid, npc⟩
                  ⟨seller.balance + min o.amount remaining * o.price,
                    setH seller.holdings sym (getH seller.holdings sym - min o.amount remaining)⟩)
                  ⟨aid, npc⟩ = some b → 0 ≤ getH b.holdings sym := by
                intro b hb
                rw [hsell1] at hb
                cases hb
                simp only [getH_setH_self]
                linarith
              split at hget <;> exact ih _ _ _ _ hinv2 s2 hget
            · rw [hS] at hS0
              simp only [walkSell, if_neg hr, hA, if_neg hc, hS0] at hget
              have hinv2 : ∀ b, getActor (setActor (setActor actors ⟨aid, npc⟩
                  ⟨seller.balance + min o.amount remaining * o.price,
                    setH seller.holdings sym (getH seller.holdings sym - min o.amount remaining)⟩)
                  ⟨o.actorId, o.isNPC⟩
                  ⟨buyer.balance - min o.amount remaining * o.price,
                    setH buyer.holdings sym (getH buyer.holdings sym + min o.amount remaining)⟩)
                  ⟨aid, npc⟩ = some b → 0 ≤ getH b.holdings sym := by
                intro b hb
                rw [getActor_setActor_ne _ _ _ _ (fun hh => hk hh.symm), hsell1] at hb
                cases hb
                simp only [getH_setH_self]
                linarith
              split at hget <;> exact ih _ _ _ _ hinv2 s2 hget


theorem computeDeal_le_affordable (sym : String) (actors : ActorsT) (bo so : Order)
    (b : Actor) (hb : getActor actors ⟨bo.actorId, bo.isNPC⟩ = some b)
    (ht : bo.type ≠ OrderType.market) :
    computeDeal sym actors bo so ≤ ((⌊b.balance / bo.price⌋ : ℤ) : ℚ) := by
  unfold computeDeal
  simp only [hb, if_pos ht]
  cases h2 : getActor actors ⟨so.actorId, so.isNPC⟩ with
  | none => exact min_le_right _ _
  | some se =>
    dsimp only
    by_cases ht2 : so.type ≠ OrderType.market
    · rw [if_pos ht2]
      exact le_trans (min_le_left _ _) (min_le_right _ _)
    · rw [if_neg ht2]
      exact min_le_right _ _

theorem computeDeal_le_holdings (sym : String) (actors : ActorsT) (bo so : Order)
    (se : Actor) (hs : getActor actors ⟨so.actorId, so.isNPC⟩ = some se)
    (ht : so.type ≠ OrderType.market) :
    computeDeal sym actors bo so ≤ getH se.holdings sym := by
  unfold computeDeal
  simp only [hs, if_pos ht]
  exact min_le_right _ _

theorem crossPrice_of_price_orders (bo so : Order) (hb : bo.type ≠ OrderType.market)
    (hs : so.type ≠ OrderType.market) :
    crossPrice bo so = (bo.price + so.price) / 2 := by
  unfold crossPrice
  rw [if_neg hb, if_neg hs]

theorem crossLoop_ledger_nonneg (sym : String) :
    ∀ (fuel : ℕ) (s : MState),
      (∀ o ∈ s.buy, o.type ≠ OrderType.market ∧ 0 < o.price) →
      (∀ o ∈ s.sell, o.type ≠ OrderType.market ∧ 0 < o.price) →
      (∀ k a, getActor s.actors k = some a → 0 ≤ a.balance ∧ 0 ≤ getH a.holdings sym) →
      ∀ k a, getActor (crossLoop sym fuel s).actors k = some a →
        0 ≤ a.balance ∧ 0 ≤ getH a.holdings sym := by
  intro fuel
  induction fuel with
  | zero =>
    intro s _ _ hl k a hget
    exact hl k a hget
  | succ n ih =>
    intro s hbuy hsell hl k a hget
    obtain ⟨sbuy, ssell, sact, slp, sv, st, scf⟩ := s
    cases sbuy with
    | nil =>
      simp only [crossLoop] at hget
      exact hl k a hget
    | cons bo btl =>
      cases ssell with
      | nil =>
        simp only [crossLoop] at hget
        exact hl k a hget
      | cons so stl =>
        simp only at hbuy hsell hl
        by_cases hcross : so.price ≤ bo.price
        · by_cases hd : computeDeal sym sact bo so ≤ 0
          · simp only [crossLoop, if_pos hcross, if_pos hd] at hget
            refine ih _ ?_ ?_ ?_ k a hget
            · exact fun o ho => hbuy o (List.mem_cons_of_mem bo ho)
            · exact fun o ho => hsell o (List.mem_cons_of_mem so ho)
            · exact hl
          · obtain ⟨hbne, hbpos⟩ := hbuy bo (List.mem_cons_self bo btl)
            obtain ⟨hsne, hspos⟩ := hsell so (List.mem_cons_self so stl)
            have hd0 : 0 < computeDeal sym sact bo so := not_le.mp hd
            have hprice : crossPrice bo so = (bo.price + so.price) / 2 :=
              crossPrice_of_price_orders bo so hbne hsne
            have hppos : 0 < crossPrice bo so := by
              rw [hprice]
              linarith
            have hple : crossPrice bo so ≤ bo.price := by
              rw [hprice]
              linarith
            have hbuy2 : ∀ o ∈ btl, o.type ≠ OrderType.market ∧ 0 < o.price :=
              fun o ho => hbuy o (List.mem_cons_of_mem bo ho)
            have hsell2 : ∀ o ∈ stl, o.type ≠ OrderType.market ∧ 0 < o.price :=
              fun o ho => hsell o (List.mem_cons_of_mem so ho)
            have hbuyKeep : ∀ o ∈ (if ({ bo with amount := bo.amount - computeDeal sym sact bo so } : Order).amount ≤ 0
                  then btl
                  else { bo with amount := bo.amount - computeDeal sym sact bo so } :: btl),
                o.type ≠ OrderType.market ∧ 0 < o.price := by
              intro o ho
              split at ho
              · exact hbuy2 o ho
              · rcases List.mem_cons.mp ho with h | h
                · subst h
                  exact ⟨hbne, hbpos⟩
                · exact hbuy2 o h
            have hsellKeep : ∀ o ∈ (if ({ so with amount := so.amount - computeDeal sym sact bo so } : Order).amount ≤ 0
                  then stl
                  else { so with amount := so.amount - computeDeal sym sact bo so } :: stl),
                o.type ≠ OrderType.market ∧ 0 < o.price := by
              intro o ho
              split at ho
              · exact hsell2 o ho
              · rcases List.mem_cons.mp ho with h | h
                · subst h
                  exact ⟨hsne, hspos⟩
                · exact hsell2 o h
            rcases hBD : getActor sact ⟨bo.actorId, bo.isNPC⟩ with _ | b <;>
              rcases hSD : getActor sact ⟨so.actorId, so.isNPC⟩ with _ | se
            · -- neither document found: no ledger mutation
              simp only [crossLoop, if_pos hcross, if_neg hd, hBD, hSD] at hget
              exact ih _ hbuyKeep hsellKeep hl k a hget
            · -- only the seller found
              simp only [crossLoop, if_pos hcross, if_neg hd, hBD, hSD] at hget
              refine ih _ hbuyKeep hsellKeep ?_ k a hget
              intro k2 a2 hg2
              by_cases hk2 : k2 = (⟨so.actorId, so.isNPC⟩ : ActorKey)
              · subst hk2
                rw [getActor_setActor_self] at hg2
                cases hg2
                obtain ⟨hseb, hseh⟩ := hl _ se hSD
                constructor
                · simp only
                  nlinarith
                · simp only [getH_setH_self]
                  have := computeDeal_le_holdings sym sact bo so se hSD hsne
                  linarith
              · rw [getActor_setActor_ne _ _ _ _ hk2] at hg2
                exact hl k2 a2 hg2
            · -- only the buyer found
              simp only [crossLoop, if_pos hcross, if_neg hd, hBD, hSD] at hget
              refine ih _ hbuyKeep hsellKeep ?_ k a hget
              intro k2 a2 hg2
              by_cases hk2 : k2 = (⟨bo.actorId, bo.isNPC⟩ : ActorKey)
              · subst hk2
                rw [getActor_setActor_self] at hg2
                cases hg2
                obtain ⟨hbb, hbh⟩ := hl _ b hBD
                have haff := computeDeal_le_affordable sym sact bo so b hBD hbne
                have hF : ((⌊b.balance / bo.price⌋ : ℤ) : ℚ) ≤ b.balance / bo.price :=
                  Int.floor_le _
                have hdm : (b.balance / bo.price) * bo.price = b.balance :=
                  div_mul_cancel₀ _ (ne_of_gt hbpos)
                constructor
                · simp only
                  nlinarith
                · simp only [getH_setH_self]
                  linarith
              · rw [getActor_setActor_ne _ _ _ _ hk2] at hg2
                exact hl k2 a2 hg2
            · -- both found (the seller value is the one fetched before the buyer's save)
              simp only [crossLoop, if_pos hcross, if_neg hd, hBD, hSD] at hget
              refine ih _ hbuyKeep hsellKeep ?_ k a hget
              intro k2 a2 hg2
              by_cases hk2s : k2 = (⟨so.actorId, so.isNPC⟩ : ActorKey)
              · subst hk2s
                rw [getActor_setActor_self] at hg2
                cases hg2
                obtain ⟨hseb, hseh⟩ := hl _ se hSD
                constructor
                · simp only
                  nlinarith
                · simp only [getH_setH_self]
                  have := computeDeal_le_holdings sym sact bo so se hSD hsne
                  linarith
              · rw [getActor_setActor_ne _ _ _ _ hk2s] at hg2
                by_cases hk2b : k2 = (⟨bo.actorId, bo.isNPC⟩ : ActorKey)
                · subst hk2b
                  rw [getActor_setActor_self] at hg2
                  cases hg2
                  obtain ⟨hbb, hbh⟩ := hl _ b hBD
                  have haff := computeDeal_le_affordable sym sact bo so b hBD hbne
                  have hF : ((⌊b.balance / bo.price⌋ : ℤ) : ℚ) ≤ b.balance / bo.price :=
                    Int.floor_le _
                  have hdm : (b.balance / bo.price) * bo.price = b.balance :=
                    div_mul_cancel₀ _ (ne_of_gt hbpos)
                  constructor
                  · simp only
                    nlinarith
                  · simp only [getH_setH_self]
                    linarith
                · rw [getActor_setActor_ne _ _ _ _ hk2b] at hg2
                  exact hl k2 a2 hg2
        · simp only [crossLoop, if_neg hcross] at hget
          exact hl k a hget


/-- C2, counterexample: the claim fails for the resting side of a market
walk.  Actor 2 has an explicit holding of `0` units of `"AEEN"` and a
resting sell limit of 5 units at price 10; an incoming market buy of 5 by
the well-funded actor 1 fills against it and the engine debits the resting
seller's holding without any check, driving it to `-5 < 0`. -/
theorem C2_counterexample :
    (getActor brokeActors ⟨2, false⟩).map (fun a => getH a.holdings "AEEN") = some 0 ∧
    (getActor (executeMarketBuy 1 false cheapSellCompany brokeActors 5).actors ⟨2, false⟩).map
      (fun a => getH a.holdings "AEEN") = some (-5) := by
  constructor
  · rfl
  · norm_num [executeMarketBuy, cheapSellCompany, brokeActors, mkCompany, walkBuy, sortSell,
      getActor, setActor, getH, setH, alookup, aset, List.insertionSort, List.orderedInsert,
      List.find?, beq_eq_decide, ActorKey.mk.injEq, Prod.mk.injEq]

/-- C2, amended: non-negativity holds exactly where the engine checks.  In
the crossing loop, if every resting order is a non-market order with a
positive price and every actor starts with non-negative balance and
non-negative holding of the symbol, then after the loop every actor still
has non-negative balance and holding (the affordability and holdings clamps
guarantee it, including the self-trade case where the seller's save
overwrites the buyer's).  In the market walks only the incoming side is
protected: a market buy never drives the incoming buyer's balance below
zero, and a market sell never drives the incoming seller's holding below
zero.  The resting counterparty of a market walk enjoys no such guarantee
(see the counterexample). -/
theorem C2_checked_sides_nonneg :
    (∀ (sym : String) (fuel : ℕ) (s : MState),
      (∀ o ∈ s.buy, o.type ≠ OrderType.market ∧ 0 < o.price) →
      (∀ o ∈ s.sell, o.type ≠ OrderType.market ∧ 0 < o.price) →
      (∀ k a, getActor s.actors k = some a → 0 ≤ a.balance ∧ 0 ≤ getH a.holdings sym) →
      ∀ k a, getActor (crossLoop sym fuel s).actors k = some a →
        0 ≤ a.balance ∧ 0 ≤ getH a.holdings sym) ∧
    (∀ (sym : String) (aid : Nat) (npc : Bool) (sells : List Order) (actors : ActorsT)
      (price volume remaining : ℚ),
      (∀ b, getActor actors ⟨aid, npc⟩ = some b → 0 ≤ b.balance) →
      ∀ b2, getActor (walkBuy sym aid npc actors price volume sells remaining).actors ⟨aid, npc⟩
          = some b2 → 0 ≤ b2.balance) ∧
    (∀ (sym : String) (aid : Nat) (npc : Bool) (buys : List Order) (actors : ActorsT)
      (price volume remaining : ℚ),
      (∀ se, getActor actors ⟨aid, npc⟩ = some se → 0 ≤ getH se.holdings sym) →
      ∀ s2, getActor (walkSell sym aid npc actors price volume buys remaining).actors ⟨aid, npc⟩
          = some s2 → 0 ≤ getH s2.holdings sym) :=
  ⟨fun sym => crossLoop_ledger_nonneg sym,
    fun sym aid npc => walkBuy_buyer_balance sym aid npc,
    fun sym aid npc => walkSell_seller_holdings sym aid npc⟩

/-- C2, witness for the amended theorem: a funded market buy leaves the
incoming buyer with the non-negative balance 9950. -/
theorem C2_witness :
    getActor (walkBuy "AEEN" 1 false demoActors 100 0
        [⟨2, false, 10, 5, OrderType.limit, none⟩] 5).actors ⟨1, false⟩
      = some ⟨9950, [("AEEN", 5)]⟩ ∧
    (0 : ℚ) ≤ (⟨9950, [("AEEN", 5)]⟩ : Actor).balance := by
  have hres : getActor (walkBuy "AEEN" 1 false demoActors 100 0
      [⟨2, false, 10, 5, OrderType.limit, none⟩] 5).actors ⟨1, false⟩
      = some ⟨9950, [("AEEN", 5)]⟩ := by
    norm_num [walkBuy, demoActors, getActor, setActor, getH, setH, alookup, aset,
      List.find?, beq_eq_decide, ActorKey.mk.injEq, Prod.mk.injEq]
  refine ⟨hres, C2_checked_sides_nonneg.2.1 "AEEN" 1 false
    [⟨2, false, 10, 5, OrderType.limit, none⟩] demoActors 100 0 5 ?_ _ hres⟩
  intro b hb
  rw [show getActor demoActors ⟨1, false⟩ = some ⟨10000, [("AEEN", 0)]⟩ from rfl] at hb
  cases Option.some.inj hb
  norm_num


theorem crossLoop_cfills_price (sym : String) :
    ∀ (fuel : ℕ) (s : MState),
      (∀ f ∈ s.cfills,
        (f.buyer.type = OrderType.market → f.price = f.seller.price) ∧
        (f.buyer.type ≠ OrderType.market → f.seller.type = OrderType.market →
          f.price = f.buyer.price) ∧
        (f.buyer.type = OrderType.limit → f.seller.type = OrderType.limit →
          f.price = (f.buyer.price + f.seller.price) / 2)) →
      ∀ f ∈ (crossLoop sym fuel s).cfills,
        (f.buyer.type = OrderType.market → f.price = f.seller.price) ∧
        (f.buyer.type ≠ OrderType.market → f.seller.type = OrderType.market →
          f.price = f.buyer.price) ∧
        (f.buyer.type = OrderType.limit → f.seller.type = OrderType.limit →
          f.price = (f.buyer.price + f.seller.price) / 2) := by
  intro fuel
  induction fuel with
  | zero =>
    intro s hinv f hf
    exact hinv f hf
  | succ n ih =>
    intro s hinv f hf
    obtain ⟨sbuy, ssell, sact, slp, sv, st, scf⟩ := s
    cases sbuy with
    | nil =>
      simp only [crossLoop] at hf
      exact hinv f hf
    | cons bo btl =>
      cases ssell with
      | nil =>
        simp only [crossLoop] at hf
        exact hinv f hf
      | cons so stl =>
        simp only at hinv
        by_cases hcross : so.price ≤ bo.price
        · by_cases hd : computeDeal sym sact bo so ≤ 0
          · simp only [crossLoop, if_pos hcross, if_pos hd] at hf
            exact ih _ hinv f hf
          · simp only [crossLoop, if_pos hcross, if_neg hd] at hf
            refine ih _ ?_ f hf
            intro g hg
            rcases List.mem_append.mp hg with h | h
            · exact hinv g h
            · have hgf : g = ⟨bo, so, crossPrice bo so, computeDeal sym sact bo so⟩ :=
                List.mem_singleton.mp h
              subst hgf
              refine ⟨?_, ?_, ?_⟩
              · intro hm
                simp only [crossPrice, if_pos hm]
              · intro hm1 hm2
                simp only [crossPrice, if_neg hm1, if_pos hm2]
              · intro hm1 hm2
                have hb2 : bo.type ≠ OrderType.market := by
                  rw [hm1]
                  intro hx
                  exact OrderType.noConfusion hx
                have hs2 : so.type ≠ OrderType.market := by
                  rw [hm2]
                  intro hx
                  exact OrderType.noConfusion hx
                simp only [crossPrice, if_neg hb2, if_neg hs2]
        · simp only [crossLoop, if_neg hcross] at hf
          exact hinv f hf

theorem walkBuy_fills_prices (sym : String) (aid : Nat) (npc : Bool) :
    ∀ (sells : List Order) (actors : ActorsT) (price volume remaining : ℚ),
      (walkBuy sym aid npc actors price volume sells remaining).fills.map Fill.price
        = (sells.map Order.price).take
            (walkBuy sym aid npc actors price volume sells remaining).fills.length := by
  intro sells
  induction sells with
  | nil =>
    intro actors price volume remaining
    simp [walkBuy]
  | cons o rest ih =>
    intro actors price volume remaining
    by_cases hr : remaining ≤ 0
    · simp [walkBuy, if_pos hr]
    · rcases hA : getActor actors ⟨aid, npc⟩ with _ | buyer
      · simp [walkBuy, if_neg hr, hA]
      · by_cases hc : buyer.balance < min o.amount remaining * o.price
        · simp [walkBuy, if_neg hr, hA, if_pos hc]
        · by_cases hz : o.amount - min o.amount remaining ≤ 0
          · simp only [walkBuy, if_neg hr, hA, if_neg hc, if_pos hz, List.map_cons,
              List.length_cons, List.take_succ_cons, List.map]
            rw [ih]
          · simp only [walkBuy, if_neg hr, hA, if_neg hc, if_neg hz, List.map_cons,
              List.length_cons, List.take_succ_cons, List.map]
            rw [ih]

theorem walkSell_fills_prices (sym : String) (aid : Nat) (npc : Bool) :
    ∀ (buys : List Order) (actors : ActorsT) (price volume remaining : ℚ),
      (walkSell sym aid npc actors price volume buys remaining).fills.map Fill.price
        = (buys.map Order.price).take
            (walkSell sym aid npc actors price volume buys remaining).fills.length := by
  intro buys
  induction buys with
  | nil =>
    intro actors price volume remaining
    simp [walkSell]
  | cons o rest ih =>
    intro actors price volume remaining
    by_cases hr : remaining ≤ 0
    · simp [walkSell, if_pos hr]
    · rcases hA : getActor actors ⟨aid, npc⟩ with _ | seller
      · simp [walkSell, if_neg hr, hA]
      · by_cases hc : getH seller.holdings sym < min o.amount remaining
        · simp only [walkSell, if_neg hr, hA, if_pos hc]
          simp
        · by_cases hz : o.amount - min o.amount remaining ≤ 0
          · simp only [walkSell, if_neg hr, hA, if_neg hc, if_pos hz, List.map_cons,
              List.length_cons, List.take_succ_cons, List.map]
            rw [ih]
          · simp only [walkSell, if_neg hr, hA, if_neg hc, if_neg hz, List.map_cons,
              List.length_cons, List.take_succ_cons, List.map]
            rw [ih]

/-- C5: trade-price rules.  In the crossing loop, every recorded fill made
against a market-order head prices at the resting (non-market) side's limit
price, and every fill between two limit orders prices at the arithmetic
midpoint of the two limit prices.  In the market-order walks, the sequence
of fill prices is exactly an initial segment of the opposite side's sorted
price ladder (ascending sells for a market buy, descending buys for a market
sell): every fill executes at the resting order's own price, walking from
the best price outward. -/
theorem C5_trade_price_rules :
    (∀ (fuel : ℕ) (c : Company) (actors : ActorsT) (f : CrossFill),
      f ∈ (matchCompanyOrders fuel c actors).cfills →
        (f.buyer.type = OrderType.market → f.price = f.seller.price) ∧
        (f.buyer.type ≠ OrderType.market → f.seller.type = OrderType.market →
          f.price = f.buyer.price) ∧
        (f.buyer.type = OrderType.limit → f.seller.type = OrderType.limit →
          f.price = (f.buyer.price + f.seller.price) / 2)) ∧
    (∀ (aid : Nat) (npc : Bool) (c : Company) (actors : ActorsT) (amount : ℚ),
      (executeMarketBuy aid npc c actors amount).fills.map Fill.price
        = ((sortSell c.orderBook.sell).map Order.price).take
            (executeMarketBuy aid npc c actors amount).fills.length) ∧
    (∀ (aid : Nat) (npc : Bool) (c : Company) (actors : ActorsT) (amount : ℚ),
      (executeMarketSell aid npc c actors amount).fills.map Fill.price
        = ((sortBuy c.orderBook.buy).map Order.price).take
            (executeMarketSell aid npc c actors amount).fills.length) := by
  refine ⟨?_, ?_, ?_⟩
  · intro fuel c actors f hf
    exact crossLoop_cfills_price c.symbol fuel _ (by intro g hg; exact absurd hg (List.not_mem_nil g)) f hf
  · intro aid npc c actors amount
    exact walkBuy_fills_prices c.symbol aid npc (sortSell c.orderBook.sell) actors c.price c.volume amount
  · intro aid npc c actors amount
    exact walkSell_fills_prices c.symbol aid npc (sortBuy c.orderBook.buy) actors c.price c.volume amount

/-- C5, witness: the crossed sample book (buy 3 at 102, sell 5 at 100)
produces one fill, priced at the midpoint 101. -/
theorem C5_witness :
    (⟨⟨1, false, 102, 3, OrderType.limit, none⟩, ⟨2, false, 100, 5, OrderType.limit, none⟩,
        101, 3⟩ : CrossFill)
      ∈ (matchCompanyOrders 10 crossCompany demoActors).cfills ∧
    (101 : ℚ) = (102 + 100) / 2 := by
  have hev : (matchCompanyOrders 10 crossCompany demoActors).cfills
      = [⟨⟨1, false, 102, 3, OrderType.limit, none⟩, ⟨2, false, 100, 5, OrderType.limit, none⟩,
          101, 3⟩] := by
    norm_num [matchCompanyOrders, stopBuyPass, stopSellPass, crossLoop, computeDeal, crossPrice,
      crossCompany, demoActors, mkCompany, triggersBuy, triggersSell, sortBuy, sortSell, clamp,
      maxSafeInteger, getActor, setActor, getH, setH, alookup, aset, List.insertionSort,
      List.orderedInsert, List.find?, beq_eq_decide, ActorKey.mk.injEq, Prod.mk.injEq]
    simp
  have hmem : (⟨⟨1, false, 102, 3, OrderType.limit, none⟩,
      ⟨2, false, 100, 5, OrderType.limit, none⟩, 101, 3⟩ : CrossFill)
      ∈ (matchCompanyOrders 10 crossCompany demoActors).cfills := by
    rw [hev]
    exact List.mem_singleton.mpr rfl
  exact ⟨hmem,
    (C5_trade_price_rules.1 10 crossCompany demoActors _ hmem).2.2 rfl rfl⟩


theorem stopBuyPass_buy_filter (sym : String) (p0 : ℚ) :
    ∀ (l : List Order) (actors : ActorsT) (sell : List Order) (price volume : ℚ),
      (stopBuyPass sym p0 actors sell price volume l).buy
        = l.filter (fun o => ! triggersBuy p0 o) := by
  intro l
  induction l with
  | nil =>
    intro actors sell price volume
    rfl
  | cons o rest ih =>
    intro actors sell price volume
    by_cases ht : triggersBuy p0 o
    · simp only [stopBuyPass, if_pos ht, List.filter_cons, ht, Bool.not_true, if_false]
      exact ih actors sell price volume
    · rw [Bool.not_eq_true] at ht
      simp only [stopBuyPass, ht, Bool.false_eq_true, if_false, List.filter_cons, Bool.not_false,
        if_true]
      rw [ih actors sell price volume]

theorem stopSellPass_sell_filter (sym : String) (p0 : ℚ) :
    ∀ (l : List Order) (actors : ActorsT) (buy : List Order) (price volume : ℚ),
      (stopSellPass sym p0 actors buy price volume l).sell
        = l.filter (fun o => ! triggersSell p0 o) := by
  intro l
  induction l with
  | nil =>
    intro actors buy price volume
    rfl
  | cons o rest ih =>
    intro actors buy price volume
    by_cases ht : triggersSell p0 o
    · simp only [stopSellPass, if_pos ht, List.filter_cons, ht, Bool.not_true, if_false]
      exact ih actors buy price volume
    · rw [Bool.not_eq_true] at ht
      simp only [stopSellPass, ht, Bool.false_eq_true, if_false, List.filter_cons, Bool.not_false,
        if_true]
      rw [ih actors buy price volume]

theorem stopBuyPass_resub (sym : String) (p0 : ℚ) :
    ∀ (l : List Order) (actors : ActorsT) (sell : List Order) (price volume : ℚ)
      (o : Order), o ∈ l → triggersBuy p0 o = true →
      (⟨Side.buy, o.actorId, o.isNPC, o.amount⟩ : Resubmit)
        ∈ (stopBuyPass sym p0 actors sell price volume l).resub := by
  intro l
  induction l with
  | nil =>
    intro actors sell price volume o ho _
    exact absurd ho (List.not_mem_nil o)
  | cons o2 rest ih =>
    intro actors sell price volume o ho htrig
    rcases List.mem_cons.mp ho with h | h
    · subst h
      simp only [stopBuyPass, if_pos htrig]
      exact List.mem_append_right _ (List.mem_singleton.mpr rfl)
    · by_cases ht2 : triggersBuy p0 o2
      · simp only [stopBuyPass, if_pos ht2]
        exact List.mem_append_left _ (ih actors sell price volume o h htrig)
      · rw [Bool.not_eq_true] at ht2
        simp only [stopBuyPass, ht2, Bool.false_eq_true, if_false]
        exact ih actors sell price volume o h htrig

theorem stopSellPass_resub (sym : String) (p0 : ℚ) :
    ∀ (l : List Order) (actors : ActorsT) (buy : List Order) (price volume : ℚ)
      (o : Order), o ∈ l → triggersSell p0 o = true →
      (⟨Side.sell, o.actorId, o.isNPC, o.amount⟩ : Resubmit)
        ∈ (stopSellPass sym p0 actors buy price volume l).resub := by
  intro l
  induction l with
  | nil =>
    intro actors buy price volume o ho _
    exact absurd ho (List.not_mem_nil o)
  | cons o2 rest ih =>
    intro actors buy price volume o ho htrig
    rcases List.mem_cons.mp ho with h | h
    · subst h
      simp only [stopSellPass, if_pos htrig]
      exact List.mem_append_right _ (List.mem_singleton.mpr rfl)
    · by_cases ht2 : triggersSell p0 o2
      · simp only [stopSellPass, if_pos ht2]
        exact List.mem_append_left _ (ih actors buy price volume o h htrig)
      · rw [Bool.not_eq_true] at ht2
        simp only [stopSellPass, ht2, Bool.false_eq_true, if_false]
        exact ih actors buy price volume o h htrig


theorem stamp_eq_iff (a b : Order) :
    stamp a = stamp b ↔
      a.actorId = b.actorId ∧ a.isNPC = b.isNPC ∧ a.price = b.price ∧ a.type = b.type ∧
        a.stopPrice = b.stopPrice := by
  unfold stamp
  simp [Prod.ext_iff]

theorem walkBuy_book_stamp (sym : String) (aid : Nat) (npc : Bool) :
    ∀ (sells : List Order) (actors : ActorsT) (price volume remaining : ℚ) (o2 : Order),
      o2 ∈ (walkBuy sym aid npc actors price volume sells remaining).book →
      ∃ o ∈ sells, stamp o2 = stamp o := by
  intro sells
  induction sells with
  | nil =>
    intro actors price volume remaining o2 h2
    exact absurd h2 (List.not_mem_nil o2)
  | cons o rest ih =>
    intro actors price volume remaining o2 h2
    by_cases hr : remaining ≤ 0
    · simp only [walkBuy, if_pos hr] at h2
      exact ⟨o2, h2, rfl⟩
    · rcases hA : getActor actors ⟨aid, npc⟩ with _ | buyer
      · simp only [walkBuy, if_neg hr, hA] at h2
        exact ⟨o2, h2, rfl⟩
      · by_cases hc : buyer.balance < min o.amount remaining * o.price
        · simp only [walkBuy, if_neg hr, hA, if_pos hc] at h2
          exact ⟨o2, h2, rfl⟩
        · by_cases hz : o.amount - min o.amount remaining ≤ 0
          · simp only [walkBuy, if_neg hr, hA, if_neg hc, if_pos hz] at h2
            obtain ⟨o3, ho3, hs⟩ := ih _ _ _ _ o2 h2
            exact ⟨o3, List.mem_cons_of_mem o ho3, hs⟩
          · simp only [walkBuy, if_neg hr, hA, if_neg hc, if_neg hz] at h2
            rcases List.mem_cons.mp h2 with h | h
            · subst h
              exact ⟨o, List.mem_cons_self o rest, rfl⟩
            · obtain ⟨o3, ho3, hs⟩ := ih _ _ _ _ o2 h
              exact ⟨o3, List.mem_cons_of_mem o ho3, hs⟩

theorem walkSell_book_stamp (sym : String) (aid : Nat) (npc : Bool) :
    ∀ (buys : List Order) (actors : ActorsT) (price volume remaining : ℚ) (o2 : Order),
      o2 ∈ (walkSell sym aid npc actors price volume buys remaining).book →
      ∃ o ∈ buys, stamp o2 = stamp o := by
  intro buys
  induction buys with
  | nil =>
    intro actors price volume remaining o2 h2
    exact absurd h2 (List.not_mem_nil o2)
  | cons o rest ih =>
    intro actors price volume remaining o2 h2
    by_cases hr : remaining ≤ 0
    · simp only [walkSell, if_pos hr] at h2
      exact ⟨o2, h2, rfl⟩
    · rcases hA : getActor actors ⟨aid, npc⟩ with _ | seller
      · simp only [walkSell, if_neg hr, hA] at h2
        exact ⟨o2, h2, rfl⟩
      · by_cases hc : getH seller.holdings sym < min o.amount remaining
        · simp only [walkSell, if_neg hr, hA, if_pos hc] at h2
          exact ⟨o2, h2, rfl⟩
        · by_cases hz : o.amount - min o.amount remaining ≤ 0
          · simp only [walkSell, if_neg hr, hA, if_neg hc, if_pos hz] at h2
            obtain ⟨o3, ho3, hs⟩ := ih _ _ _ _ o2 h2
            exact ⟨o3, List.mem_cons_of_mem o ho3, hs⟩
          · simp only [walkSell, if_neg hr, hA, if_neg hc, if_neg hz] at h2
            rcases List.mem_cons.mp h2 with h | h
            · subst h
              exact ⟨o, List.mem_cons_self o rest, rfl⟩
            · obtain ⟨o3, ho3, hs⟩ := ih _ _ _ _ o2 h
              exact ⟨o3, List.mem_cons_of_mem o ho3, hs⟩

theorem stopSellPass_buy_stamp (sym : String) (p0 : ℚ) :
    ∀ (l : List Order) (actors : ActorsT) (buy : List Order) (price volume : ℚ) (o2 : Order),
      o2 ∈ (stopSellPass sym p0 actors buy price volume l).buy →
      ∃ o ∈ buy, stamp o2 = stamp o := by
  intro l
  induction l with
  | nil =>
    intro actors buy price volume o2 h2
    exact ⟨o2, h2, rfl⟩
  | cons o rest ih =>
    intro actors buy price volume o2 h2
    by_cases ht : triggersSell p0 o
    · simp only [stopSellPass, if_pos ht] at h2
      obtain ⟨o3, ho3, hs3⟩ := walkSell_book_stamp sym o.actorId o.isNPC _ _ _ _ _ o2 h2
      have ho4 : o3 ∈ (stopSellPass sym p0 actors buy price volume rest).buy :=
        ((List.perm_insertionSort buyLE _).mem_iff).mp ho3
      obtain ⟨o5, ho5, hs5⟩ := ih _ _ _ _ o3 ho4
      exact ⟨o5, ho5, hs3.trans hs5⟩
    · rw [Bool.not_eq_true] at ht
      simp only [stopSellPass, ht, Bool.false_eq_true, if_false] at h2
      exact ih _ _ _ _ o2 h2

theorem stopBuyPass_sell_stamp (sym : String) (p0 : ℚ) :
    ∀ (l : List Order) (actors : ActorsT) (sell : List Order) (price volume : ℚ) (o2 : Order),
      o2 ∈ (stopBuyPass sym p0 actors sell price volume l).sell →
      ∃ o ∈ sell, stamp o2 = stamp o := by
  intro l
  induction l with
  | nil =>
    intro actors sell price volume o2 h2
    exact ⟨o2, h2, rfl⟩
  | cons o rest ih =>
    intro actors sell price volume o2 h2
    by_cases ht : triggersBuy p0 o
    · simp only [stopBuyPass, if_pos ht] at h2
      obtain ⟨o3, ho3, hs3⟩ := walkBuy_book_stamp sym o.actorId o.isNPC _ _ _ _ _ o2 h2
      have ho4 : o3 ∈ (stopBuyPass sym p0 actors sell price volume rest).sell :=
        ((List.perm_insertionSort sellLE _).mem_iff).mp ho3
      obtain ⟨o5, ho5, hs5⟩ := ih _ _ _ _ o3 ho4
      exact ⟨o5, ho5, hs3.trans hs5⟩
    · rw [Bool.not_eq_true] at ht
      simp only [stopBuyPass, ht, Bool.false_eq_true, if_false] at h2
      exact ih _ _ _ _ o2 h2

theorem crossLoop_book_stamp (sym : String) :
    ∀ (fuel : ℕ) (s : MState) (o2 : Order),
      (o2 ∈ (crossLoop sym fuel s).buy → ∃ o ∈ s.buy, stamp o2 = stamp o) ∧
      (o2 ∈ (crossLoop sym fuel s).sell → ∃ o ∈ s.sell, stamp o2 = stamp o) := by
  intro fuel
  induction fuel with
  | zero =>
    intro s o2
    exact ⟨fun h => ⟨o2, h, rfl⟩, fun h => ⟨o2, h, rfl⟩⟩
  | succ n ih =>
    intro s o2
    obtain ⟨sbuy, ssell, sact, slp, sv, st, scf⟩ := s
    cases sbuy with
    | nil => exact ⟨fun h => ⟨o2, h, rfl⟩, fun h => ⟨o2, h, rfl⟩⟩
    | cons bo btl =>
      cases ssell with
      | nil => exact ⟨fun h => ⟨o2, h, rfl⟩, fun h => ⟨o2, h, rfl⟩⟩
      | cons so stl =>
        by_cases hcross : so.price ≤ bo.price
        · by_cases hd : computeDeal sym sact bo so ≤ 0
          · constructor
            · intro h
              simp only [crossLoop, if_pos hcross, if_pos hd] at h
              obtain ⟨o3, ho3, hs3⟩ := (ih _ o2).1 h
              exact ⟨o3, List.mem_cons_of_mem bo ho3, hs3⟩
            · intro h
              simp only [crossLoop, if_pos hcross, if_pos hd] at h
              obtain ⟨o3, ho3, hs3⟩ := (ih _ o2).2 h
              exact ⟨o3, List.mem_cons_of_mem so ho3, hs3⟩
          · constructor
            · intro h
              simp only [crossLoop, if_pos hcross, if_neg hd] at h
              obtain ⟨o3, ho3, hs3⟩ := (ih _ o2).1 h
              by_cases hz : ({ bo with amount := bo.amount - computeDeal sym sact bo so } : Order).amount ≤ 0
              · rw [if_pos hz] at ho3
                exact ⟨o3, List.mem_cons_of_mem bo ho3, hs3⟩
              · rw [if_neg hz] at ho3
                rcases List.mem_cons.mp ho3 with h4 | h4
                · subst h4
                  exact ⟨bo, List.mem_cons_self bo btl, hs3⟩
                · exact ⟨o3, List.mem_cons_of_mem bo h4, hs3⟩
            · intro h
              simp only [crossLoop, if_pos hcross, if_neg hd] at h
              obtain ⟨o3, ho3, hs3⟩ := (ih _ o2).2 h
              by_cases hz : ({ so with amount := so.amount - computeDeal sym sact bo so } : Order).amount ≤ 0
              · rw [if_pos hz] at ho3
                exact ⟨o3, List.mem_cons_of_mem so ho3, hs3⟩
              · rw [if_neg hz] at ho3
                rcases List.mem_cons.mp ho3 with h4 | h4
                · subst h4
                  exact ⟨so, List.mem_cons_self so stl, hs3⟩
                · exact ⟨o3, List.mem_cons_of_mem so h4, hs3⟩
        · constructor
          · intro h
            simp only [crossLoop, if_neg hcross] at h
            exact ⟨o2, h, rfl⟩
          · intro h
            simp only [crossLoop, if_neg hcross] at h
            exact ⟨o2, h, rfl⟩


/-- C4, counterexample: the sell stop of `stopsCompany` (trigger 100, so
triggered by the snapshot price 100) is never resubmitted as a market
order.  The buy-stop scan runs first, converts the buy stop into a market
buy, and that market buy *fills against the resting sell stop* at its limit
price 95, so the sell-stop scan finds it gone: the resubmission log of the
whole invocation contains only the buy entry. -/
theorem C4_counterexample :
    (⟨2, false, 95, 5, OrderType.stop, some 100⟩ : Order) ∈ stopsCompany.orderBook.sell ∧
    stopsCompany.price ≤ 100 ∧
    (matchCompanyOrders 10 stopsCompany demoActors).resub = [⟨Side.buy, 1, false, 5⟩] := by
  refine ⟨List.mem_singleton.mpr rfl, by norm_num [stopsCompany, mkCompany], ?_⟩
  norm_num [matchCompanyOrders, stopBuyPass, stopSellPass, crossLoop, stopsCompany, demoActors,
    mkCompany, triggersBuy, triggersSell, walkBuy, walkSell, sortBuy, sortSell, clamp,
    maxSafeInteger, getActor, setActor, getH, setH, alookup, aset, List.insertionSort,
    List.orderedInsert, List.find?, beq_eq_decide, ActorKey.mk.injEq, Prod.mk.injEq]

/-- C4, amended: the stop-trigger pass runs before the crossing step and
compares every stop against the single snapshot of the instrument price
read at the start of the invocation; price changes caused by fills within
the invocation do not trigger further stops.  Every resting buy-stop whose
trigger is at or below the snapshot is resubmitted as a market buy of its
resting quantity and owner; a sell-stop whose trigger is at or above the
snapshot is resubmitted as a market sell of its *current* quantity and
owner provided it still rests in the book after the buy-stop scan - a sell
stop (partially) consumed by a market buy of the buy-stop scan is filled as
an ordinary resting order instead of being resubmitted.  No stop order
satisfying its snapshot trigger condition ever survives in the book. -/
theorem C4_stop_snapshot (fuel : ℕ) (c : Company) (actors : ActorsT) (o : Order) (t : ℚ) :
    (o ∈ (matchCompanyOrders fuel c actors).company.orderBook.buy →
      o.type = OrderType.stop → o.stopPrice = some t → c.price < t) ∧
    (o ∈ (matchCompanyOrders fuel c actors).company.orderBook.sell →
      o.type = OrderType.stop → o.stopPrice = some t → t < c.price) ∧
    (o ∈ c.orderBook.buy → o.type = OrderType.stop → o.stopPrice = some t → t ≤ c.price →
      (⟨Side.buy, o.actorId, o.isNPC, o.amount⟩ : Resubmit)
        ∈ (matchCompanyOrders fuel c actors).resub) ∧
    (o ∈ (stopBuyPass c.symbol c.price actors c.orderBook.sell c.price c.volume
        c.orderBook.buy).sell →
      o.type = OrderType.stop → o.stopPrice = some t → c.price ≤ t →
      (⟨Side.sell, o.actorId, o.isNPC, o.amount⟩ : Resubmit)
        ∈ (matchCompanyOrders fuel c actors).resub) := by
  refine ⟨?_, ?_, ?_, ?_⟩
  · intro hmem htype hsp
    simp only [matchCompanyOrders] at hmem
    set rb := stopBuyPass c.symbol c.price actors c.orderBook.sell c.price c.volume
      c.orderBook.buy with hrb
    set rs := stopSellPass c.symbol c.price rb.actors rb.buy rb.price rb.volume rb.sell with hrs
    obtain ⟨o3, ho3, hs3⟩ := (crossLoop_book_stamp c.symbol fuel _ o).1 hmem
    have ho4 : o3 ∈ rs.buy := by
      dsimp only at ho3
      split at ho3
      · exact ho3
      · exact ((List.perm_insertionSort buyLE _).mem_iff).mp ho3
    obtain ⟨o5, ho5, hs5⟩ := stopSellPass_buy_stamp c.symbol c.price _ _ _ _ _ o3 ho4
    rw [hrb, stopBuyPass_buy_filter] at ho5
    have htrig : (! triggersBuy c.price o5) = true := (List.mem_filter.mp ho5).2
    rw [Bool.not_eq_eq_eq_not, Bool.not_true] at htrig
    have hst := (stamp_eq_iff o o3).mp hs3
    have hst2 := (stamp_eq_iff o3 o5).mp hs5
    have hty5 : o5.type = OrderType.stop := by
      rw [← hst2.2.2.2.1, ← hst.2.2.2.1, htype]
    have hsp5 : o5.stopPrice = some t := by
      rw [← hst2.2.2.2.2, ← hst.2.2.2.2, hsp]
    unfold triggersBuy at htrig
    rw [hty5, hsp5] at htrig
    simp at htrig
    linarith
  · intro hmem htype hsp
    simp only [matchCompanyOrders] at hmem
    set rb := stopBuyPass c.symbol c.price actors c.orderBook.sell c.price c.volume
      c.orderBook.buy with hrb
    set rs := stopSellPass c.symbol c.price rb.actors rb.buy rb.price rb.volume rb.sell with hrs
    obtain ⟨o3, ho3, hs3⟩ := (crossLoop_book_stamp c.symbol fuel _ o).2 hmem
    have ho4 : o3 ∈ rs.sell := by
      dsimp only at ho3
      split at ho3
      · exact ho3
      · exact ((List.perm_insertionSort sellLE _).mem_iff).mp ho3
    rw [hrs, stopSellPass_sell_filter] at ho4
    have htrig : (! triggersSell c.price o3) = true := (List.mem_filter.mp ho4).2
    rw [Bool.not_eq_eq_eq_not, Bool.not_true] at htrig
    have hst := (stamp_eq_iff o o3).mp hs3
    have hty3 : o3.type = OrderType.stop := by
      rw [← hst.2.2.2.1, htype]
    have hsp3 : o3.stopPrice = some t := by
      rw [← hst.2.2.2.2, hsp]
    unfold triggersSell at htrig
    rw [hty3, hsp3] at htrig
    simp at htrig
    linarith
  · intro hmem htype hsp hle
    have htrig : triggersBuy c.price o = true := by
      unfold triggersBuy
      rw [htype, hsp]
      simp [hle]
    have h1 := stopBuyPass_resub c.symbol c.price c.orderBook.buy actors c.orderBook.sell
      c.price c.volume o hmem htrig
    simp only [matchCompanyOrders]
    exact List.mem_append_left _ h1
  · intro hmem htype hsp hle
    have htrig : triggersSell c.price o = true := by
      unfold triggersSell
      rw [htype, hsp]
      simp [hle]
    set rb := stopBuyPass c.symbol c.price actors c.orderBook.sell c.price c.volume
      c.orderBook.buy with hrb
    have h1 := stopSellPass_resub c.symbol c.price rb.sell rb.actors rb.buy rb.price
      rb.volume o hmem htrig
    simp only [matchCompanyOrders]
    exact List.mem_append_right _ h1

/-- C4, witness for the amended theorem: the buy stop of `stopsCompany`
(trigger 90 at snapshot 100) is resubmitted as a market buy. -/
theorem C4_witness :
    (⟨1, false, 100, 5, OrderType.stop, some 90⟩ : Order) ∈ stopsCompany.orderBook.buy ∧
    (90 : ℚ) ≤ stopsCompany.price ∧
    (⟨Side.buy, 1, false, 5⟩ : Resubmit) ∈ (matchCompanyOrders 10 stopsCompany demoActors).resub := by
  refine ⟨List.mem_singleton.mpr rfl, by norm_num [stopsCompany, mkCompany], ?_⟩
  exact (C4_stop_snapshot 10 stopsCompany demoActors
      ⟨1, false, 100, 5, OrderType.stop, some 90⟩ 90).2.2.1
    (List.mem_singleton.mpr rfl) rfl rfl (by norm_num [stopsCompany, mkCompany])


theorem sorted_sortBuy (l : List Order) : List.Sorted buyLE (sortBuy l) :=
  List.sorted_insertionSort buyLE l

theorem sorted_sortSell (l : List Order) : List.Sorted sellLE (sortSell l) :=
  List.sorted_insertionSort sellLE l

theorem walkBuy_book_sorted (sym : String) (aid : Nat) (npc : Bool) :
    ∀ (sells : List Order) (actors : ActorsT) (price volume remaining : ℚ),
      List.Sorted sellLE sells →
      List.Sorted sellLE (walkBuy sym aid npc actors price volume sells remaining).book := by
  intro sells
  induction sells with
  | nil =>
    intro actors price volume remaining _
    simp [walkBuy]
  | cons o rest ih =>
    intro actors price volume remaining hsort
    obtain ⟨h1, h2⟩ := List.sorted_cons.mp hsort
    by_cases hr : remaining ≤ 0
    · simpa only [walkBuy, if_pos hr] using hsort
    · rcases hA : getActor actors ⟨aid, npc⟩ with _ | buyer
      · simpa only [walkBuy, if_neg hr, hA] using hsort
      · by_cases hc : buyer.balance < min o.amount remaining * o.price
        · simpa only [walkBuy, if_neg hr, hA, if_pos hc] using hsort
        · by_cases hz : o.amount - min o.amount remaining ≤ 0
          · simp only [walkBuy, if_neg hr, hA, if_neg hc, if_pos hz]
            exact ih _ _ _ _ h2
          · simp only [walkBuy, if_neg hr, hA, if_neg hc, if_neg hz]
            rw [List.sorted_cons]
            refine ⟨?_, ih _ _ _ _ h2⟩
            intro x hx
            obtain ⟨y, hy, hsxy⟩ := walkBuy_book_stamp sym aid npc _ _ _ _ _ x hx
            have hxy := ((stamp_eq_iff x y).mp hsxy).2.2.1
            show o.price ≤ x.price
            rw [hxy]
            exact h1 y hy
  
theorem walkSell_book_sorted (sym : String) (aid : Nat) (npc : Bool) :
    ∀ (buys : List Order) (actors : ActorsT) (price volume remaining : ℚ),
      List.Sorted buyLE buys →
      List.Sorted buyLE (walkSell sym aid npc actors price volume buys remaining).book := by
  intro buys
  induction buys with
  | nil =>
    intro actors price volume remaining _
    simp [walkSell]
  | cons o rest ih =>
    intro actors price volume remaining hsort
    obtain ⟨h1, h2⟩ := List.sorted_cons.mp hsort
    by_cases hr : remaining ≤ 0
    · simpa only [walkSell, if_pos hr] using hsort
    · rcases hA : getActor actors ⟨aid, npc⟩ with _ | seller
      · simpa only [walkSell, if_neg hr, hA] using hsort
      · by_cases hc : getH seller.holdings sym < min o.amount remaining
        · simpa only [walkSell, if_neg hr, hA, if_pos hc] using hsort
        · by_cases hz : o.amount - min o.amount remaining ≤ 0
          · simp only [walkSell, if_neg hr, hA, if_neg hc, if_pos hz]
            exact ih _ _ _ _ h2
          · simp only [walkSell, if_neg hr, hA, if_neg hc, if_neg hz]
            rw [List.sorted_cons]
            refine ⟨?_, ih _ _ _ _ h2⟩
            intro x hx
            obtain ⟨y, hy, hsxy⟩ := walkSell_book_stamp sym aid npc _ _ _ _ _ x hx
            have hxy := ((stamp_eq_iff x y).mp hsxy).2.2.1
            show x.price ≤ o.price
            rw [hxy]
            exact h1 y hy

theorem crossLoop_sorted (sym : String) :
    ∀ (fuel : ℕ) (s : MState),
      List.Sorted buyLE s.buy → List.Sorted sellLE s.sell →
      List.Sorted buyLE (crossLoop sym fuel s).buy ∧
        List.Sorted sellLE (crossLoop sym fuel s).sell := by
  intro fuel
  induction fuel with
  | zero =>
    intro s hb hs
    exact ⟨hb, hs⟩
  | succ n ih =>
    intro s hb hs
    obtain ⟨sbuy, ssell, sact, slp, sv, st, scf⟩ := s
    cases sbuy with
    | nil => exact ⟨hb, hs⟩
    | cons bo btl =>
      cases ssell with
      | nil => exact ⟨hb, hs⟩
      | cons so stl =>
        simp only at hb hs
        obtain ⟨hb1, hb2⟩ := List.sorted_cons.mp hb
        obtain ⟨hs1, hs2⟩ := List.sorted_cons.mp hs
        by_cases hcross : so.price ≤ bo.price
        · by_cases hd : computeDeal sym sact bo so ≤ 0
          · simp only [crossLoop, if_pos hcross, if_pos hd]
            exact ih _ hb2 hs2
          · simp only [crossLoop, if_pos hcross, if_neg hd]
            refine ih _ ?_ ?_
            · show List.Sorted buyLE (if _ then btl else _ :: btl)
              split
              · exact hb2
              · rw [List.sorted_cons]
                exact ⟨fun x hx => hb1 x hx, hb2⟩
            · show List.Sorted sellLE (if _ then stl else _ :: stl)
              split
              · exact hs2
              · rw [List.sorted_cons]
                exact ⟨fun x hx => hs1 x hx, hs2⟩
        · simp only [crossLoop, if_neg hcross]
          exact ⟨hb, hs⟩


theorem stopBuyPass_buy_sorted (sym : String) (p0 : ℚ) (l : List Order) (actors : ActorsT)
    (sell : List Order) (price volume : ℚ) (h : List.Sorted buyLE l) :
    List.Sorted buyLE (stopBuyPass sym p0 actors sell price volume l).buy := by
  rw [stopBuyPass_buy_filter]
  exact h.filter _

theorem stopSellPass_sell_sorted (sym : String) (p0 : ℚ) (l : List Order) (actors : ActorsT)
    (buy : List Order) (price volume : ℚ) (h : List.Sorted sellLE l) :
    List.Sorted sellLE (stopSellPass sym p0 actors buy price volume l).sell := by
  rw [stopSellPass_sell_filter]
  exact h.filter _

theorem stopBuyPass_sell_sorted (sym : String) (p0 : ℚ) :
    ∀ (l : List Order) (actors : ActorsT) (sell : List Order) (price volume : ℚ),
      List.Sorted sellLE sell →
      List.Sorted sellLE (stopBuyPass sym p0 actors sell price volume l).sell := by
  intro l
  induction l with
  | nil =>
    intro actors sell price volume h
    exact h
  | cons o rest ih =>
    intro actors sell price volume h
    by_cases ht : triggersBuy p0 o
    · simp only [stopBuyPass, if_pos ht]
      exact walkBuy_book_sorted sym o.actorId o.isNPC _ _ _ _ _ (sorted_sortSell _)
    · rw [Bool.not_eq_true] at ht
      simp only [stopBuyPass, ht, Bool.false_eq_true, if_false]
      exact ih _ _ _ _ h

theorem stopSellPass_buy_sorted (sym : String) (p0 : ℚ) :
    ∀ (l : List Order) (actors : ActorsT) (buy : List Order) (price volume : ℚ),
      List.Sorted buyLE buy →
      List.Sorted buyLE (stopSellPass sym p0 actors buy price volume l).buy := by
  intro l
  induction l with
  | nil =>
    intro actors buy price volume h
    exact h
  | cons o rest ih =>
    intro actors buy price volume h
    by_cases ht : triggersSell p0 o
    · simp only [stopSellPass, if_pos ht]
      exact walkSell_book_sorted sym o.actorId o.isNPC _ _ _ _ _ (sorted_sortBuy _)
    · rw [Bool.not_eq_true] at ht
      simp only [stopSellPass, ht, Bool.false_eq_true, if_false]
      exact ih _ _ _ _ h

theorem lane_cons (k : ℚ) (o : Order) (l : List Order) :
    lane k (o :: l) = if o.price = k then stamp o :: lane k l else lane k l := by
  by_cases h : o.price = k <;> simp [lane, atPrice_cons, h]

theorem lane_sortBuy (k : ℚ) (l : List Order) : lane k (sortBuy l) = lane k l := by
  unfold lane
  rw [atPrice_sortBuy]

theorem lane_sortSell (k : ℚ) (l : List Order) : lane k (sortSell l) = lane k l := by
  unfold lane
  rw [atPrice_sortSell]

theorem lane_filter_sublist (k : ℚ) (p : Order → Bool) (l : List Order) :
    List.Sublist (lane k (l.filter p)) (lane k l) := by
  unfold lane atPrice
  exact ((l.filter_sublist).filter _).map _

theorem lane_tail_sublist (k : ℚ) (o : Order) (l : List Order) :
    List.Sublist (lane k l) (lane k (o :: l)) := by
  rw [lane_cons]
  split
  · exact List.sublist_cons_self _ _
  · exact List.Sublist.refl _

theorem walkBuy_book_lane (sym : String) (aid : Nat) (npc : Bool) :
    ∀ (sells : List Order) (actors : ActorsT) (price volume remaining : ℚ) (k : ℚ),
      List.Sublist (lane k (walkBuy sym aid npc actors price volume sells remaining).book)
        (lane k sells) := by
  intro sells
  induction sells with
  | nil =>
    intro actors price volume remaining k
    simp [walkBuy]
  | cons o rest ih =>
    intro actors price volume remaining k
    by_cases hr : remaining ≤ 0
    · simp only [walkBuy, if_pos hr]
      exact List.Sublist.refl _
    · rcases hA : getActor actors ⟨aid, npc⟩ with _ | buyer
      · simp only [walkBuy, if_neg hr, hA]
        exact List.Sublist.refl _
      · by_cases hc : buyer.balance < min o.amount remaining * o.price
        · simp only [walkBuy, if_neg hr, hA, if_pos hc]
          exact List.Sublist.refl _
        · by_cases hz : o.amount - min o.amount remaining ≤ 0
          · simp only [walkBuy, if_neg hr, hA, if_neg hc, if_pos hz]
            exact (ih _ _ _ _ k).trans (lane_tail_sublist k o rest)
          · simp only [walkBuy, if_neg hr, hA, if_neg hc, if_neg hz]
            rw [lane_cons, lane_cons]
            by_cases hk : o.price = k
            · rw [if_pos hk, if_pos hk]
              exact List.Sublist.cons₂ _ (ih _ _ _ _ k)
            · rw [if_neg hk, if_neg hk]
              exact ih _ _ _ _ k

theorem walkSell_book_lane (sym : String) (aid : Nat) (npc : Bool) :
    ∀ (buys : List Order) (actors : ActorsT) (price volume remaining : ℚ) (k : ℚ),
      List.Sublist (lane k (walkSell sym aid npc actors price volume buys remaining).book)
        (lane k buys) := by
  intro buys
  induction buys with
  | nil =>
    intro actors price volume remaining k
    simp [walkSell]
  | cons o rest ih =>
    intro actors price volume remaining k
    by_cases hr : remaining ≤ 0
    · simp only [walkSell, if_pos hr]
      exact List.Sublist.refl _
    · rcases hA : getActor actors ⟨aid, npc⟩ with _ | seller
      · simp only [walkSell, if_neg hr, hA]
        exact List.Sublist.refl _
      · by_cases hc : getH seller.holdings sym < min o.amount remaining
        · simp only [walkSell, if_neg hr, hA, if_pos hc]
          exact List.Sublist.refl _
        · by_cases hz : o.amount - min o.amount remaining ≤ 0
          · simp only [walkSell, if_neg hr, hA, if_neg hc, if_pos hz]
            exact (ih _ _ _ _ k).trans (lane_tail_sublist k o rest)
          · simp only [walkSell, if_neg hr, hA, if_neg hc, if_neg hz]
            rw [lane_cons, lane_cons]
            by_cases hk : o.price = k
            · rw [if_pos hk, if_pos hk]
              exact List.Sublist.cons₂ _ (ih _ _ _ _ k)
            · rw [if_neg hk, if_neg hk]
              exact ih _ _ _ _ k

theorem crossLoop_lane (sym : String) :
    ∀ (fuel : ℕ) (s : MState) (k : ℚ),
      List.Sublist (lane k (crossLoop sym fuel s).buy) (lane k s.buy) ∧
      List.Sublist (lane k (crossLoop sym fuel s).sell) (lane k s.sell) := by
  intro fuel
  induction fuel with
  | zero =>
    intro s k
    exact ⟨List.Sublist.refl _, List.Sublist.refl _⟩
  | succ n ih =>
    intro s k
    obtain ⟨sbuy, ssell, sact, slp, sv, st, scf⟩ := s
    cases sbuy with
    | nil => exact ⟨List.Sublist.refl _, List.Sublist.refl _⟩
    | cons bo btl =>
      cases ssell with
      | nil => exact ⟨List.Sublist.refl _, List.Sublist.refl _⟩
      | cons so stl =>
        by_cases hcross : so.price ≤ bo.price
        · by_cases hd : computeDeal sym sact bo so ≤ 0
          · simp only [crossLoop, if_pos hcross, if_pos hd]
            obtain ⟨hbu, hse⟩ := ih ⟨btl, stl, sact, slp, sv, st, scf⟩ k
            exact ⟨hbu.trans (lane_tail_sublist k bo btl),
              hse.trans (lane_tail_sublist k so stl)⟩
          · simp only [crossLoop, if_pos hcross, if_neg hd]
            obtain ⟨hbu, hse⟩ := ih _ k
            refine ⟨hbu.trans ?_, hse.trans ?_⟩
            · show List.Sublist (lane k (if _ then btl else _ :: btl)) (lane k (bo :: btl))
              split
              · exact lane_tail_sublist k bo btl
              · have : lane k ({ bo with amount := bo.amount - computeDeal sym sact bo so } :: btl)
                    = lane k (bo :: btl) := by
                  by_cases hk : bo.price = k <;> simp [lane_cons, hk, stamp]
                rw [this]
            · show List.Sublist (lane k (if _ then stl else _ :: stl)) (lane k (so :: stl))
              split
              · exact lane_tail_sublist k so stl
              · have : lane k ({ so with amount := so.amount - computeDeal sym sact bo so } :: stl)
                    = lane k (so :: stl) := by
                  by_cases hk : so.price = k <;> simp [lane_cons, hk, stamp]
                rw [this]
        · simp only [crossLoop, if_neg hcross]
          exact ⟨List.Sublist.refl _, List.Sublist.refl _⟩

theorem stopBuyPass_buy_lane (sym : String) (p0 : ℚ) (l : List Order) (actors : ActorsT)
    (sell : List Order) (price volume : ℚ) (k : ℚ) :
    List.Sublist (lane k (stopBuyPass sym p0 actors sell price volume l).buy) (lane k l) := by
  rw [stopBuyPass_buy_filter]
  exact lane_filter_sublist k _ l

theorem stopSellPass_sell_lane (sym : String) (p0 : ℚ) (l : List Order) (actors : ActorsT)
    (buy : List Order) (price volume : ℚ) (k : ℚ) :
    List.Sublist (lane k (stopSellPass sym p0 actors buy price volume l).sell) (lane k l) := by
  rw [stopSellPass_sell_filter]
  exact lane_filter_sublist k _ l

theorem stopBuyPass_sell_lane (sym : String) (p0 : ℚ) :
    ∀ (l : List Order) (actors : ActorsT) (sell : List Order) (price volume : ℚ) (k : ℚ),
      List.Sublist (lane k (stopBuyPass sym p0 actors sell price volume l).sell)
        (lane k sell) := by
  intro l
  induction l with
  | nil =>
    intro actors sell price volume k
    exact List.Sublist.refl _
  | cons o rest ih =>
    intro actors sell price volume k
    by_cases ht : triggersBuy p0 o
    · simp only [stopBuyPass, if_pos ht]
      refine (walkBuy_book_lane sym o.actorId o.isNPC _ _ _ _ _ k).trans ?_
      rw [lane_sortSell]
      exact ih _ _ _ _ k
    · rw [Bool.not_eq_true] at ht
      simp only [stopBuyPass, ht, Bool.false_eq_true, if_false]
      exact ih _ _ _ _ k

theorem stopSellPass_buy_lane (sym : String) (p0 : ℚ) :
    ∀ (l : List Order) (actors : ActorsT) (buy : List Order) (price volume : ℚ) (k : ℚ),
      List.Sublist (lane k (stopSellPass sym p0 actors buy price volume l).buy)
        (lane k buy) := by
  intro l
  induction l with
  | nil =>
    intro actors buy price volume k
    exact List.Sublist.refl _
  | cons o rest ih =>
    intro actors buy price volume k
    by_cases ht : triggersSell p0 o
    · simp only [stopSellPass, if_pos ht]
      refine (walkSell_book_lane sym o.actorId o.isNPC _ _ _ _ _ k).trans ?_
      rw [lane_sortBuy]
      exact ih _ _ _ _ k
    · rw [Bool.not_eq_true] at ht
      simp only [stopSellPass, ht, Bool.false_eq_true, if_false]
      exact ih _ _ _ _ k


theorem atPrice_append_single (k : ℚ) (l : List Order) (e : Order) :
    atPrice k (l ++ [e]) = atPrice k l ++ (if e.price = k then [e] else []) := by
  by_cases h : e.price = k <;>
    simp [atPrice, List.filter_append, List.filter_cons, h]

/-- C8: book ordering and FIFO.  Inserting a limit or stop order re-sorts
the book, so afterwards the buy side is non-increasing and the sell side
non-decreasing in price; the sort is the (ECMAScript-mandated) stable one,
so the inserted order lands *after* all resting orders of equal price and
the relative order of each price level is untouched (`atPrice`).  Matching
(`matchCompanyOrders`) keeps both sides sorted (given they were sorted) and
only ever removes orders or reduces head amounts, so each price level's
FIFO sequence of order identities (`lane`) survives as a subsequence; the
same holds for the book side walked by a market order, whose execution
starts by re-sorting that side. -/
theorem C8_book_sorted_fifo (aid : Nat) (npc : Bool) (c : Company) (actors : ActorsT)
    (price amount : ℚ) (sp : Option ℚ) (type : OrderType) (k : ℚ) (fuel : ℕ) :
    (type = OrderType.limit ∨ type = OrderType.stop →
      (List.Sorted buyLE
          (addOrderToBook aid npc c actors Side.buy type price amount sp).1.orderBook.buy ∧
        List.Sorted sellLE
          (addOrderToBook aid npc c actors Side.buy type price amount sp).1.orderBook.sell) ∧
      (List.Sorted buyLE
          (addOrderToBook aid npc c actors Side.sell type price amount sp).1.orderBook.buy ∧
        List.Sorted sellLE
          (addOrderToBook aid npc c actors Side.sell type price amount sp).1.orderBook.sell)) ∧
    (type = OrderType.limit ∨ type = OrderType.stop →
      (atPrice k (addOrderToBook aid npc c actors Side.buy type price amount sp).1.orderBook.buy
          = atPrice k c.orderBook.buy
            ++ (if price = k then [⟨aid, npc, price, amount, type, sp⟩] else []) ∧
        atPrice k (addOrderToBook aid npc c actors Side.buy type price amount sp).1.orderBook.sell
          = atPrice k c.orderBook.sell) ∧
      (atPrice k (addOrderToBook aid npc c actors Side.sell type price amount sp).1.orderBook.sell
          = atPrice k c.orderBook.sell
            ++ (if price = k then [⟨aid, npc, price, amount, type, sp⟩] else []) ∧
        atPrice k (addOrderToBook aid npc c actors Side.sell type price amount sp).1.orderBook.buy
          = atPrice k c.orderBook.buy)) ∧
    (List.Sorted buyLE c.orderBook.buy → List.Sorted sellLE c.orderBook.sell →
      List.Sorted buyLE (matchCompanyOrders fuel c actors).company.orderBook.buy ∧
      List.Sorted sellLE (matchCompanyOrders fuel c actors).company.orderBook.sell) ∧
    (List.Sublist (lane k (matchCompanyOrders fuel c actors).company.orderBook.buy)
        (lane k c.orderBook.buy) ∧
      List.Sublist (lane k (matchCompanyOrders fuel c actors).company.orderBook.sell)
        (lane k c.orderBook.sell)) ∧
    (List.Sorted sellLE
        (addOrderToBook aid npc c actors Side.buy OrderType.market price amount sp).1.orderBook.sell ∧
      List.Sorted buyLE
        (addOrderToBook aid npc c actors Side.sell OrderType.market price amount sp).1.orderBook.buy ∧
      List.Sublist (lane k
          (addOrderToBook aid npc c actors Side.buy OrderType.market price amount sp).1.orderBook.sell)
        (lane k c.orderBook.sell) ∧
      List.Sublist (lane k
          (addOrderToBook aid npc c actors Side.sell OrderType.market price amount sp).1.orderBook.buy)
        (lane k c.orderBook.buy)) := by
  refine ⟨?_, ?_, ?_, ?_, ?_⟩
  · intro htype
    rcases htype with h | h <;> subst h <;>
      exact ⟨⟨sorted_sortBuy _, sorted_sortSell _⟩, ⟨sorted_sortBuy _, sorted_sortSell _⟩⟩
  · intro htype
    have hb : ∀ l e, atPrice k (sortBuy (l ++ [e]))
        = atPrice k l ++ (if Order.price e = k then [e] else []) := by
      intro l e
      rw [atPrice_sortBuy, atPrice_append_single]
    have hs : ∀ l e, atPrice k (sortSell (l ++ [e]))
        = atPrice k l ++ (if Order.price e = k then [e] else []) := by
      intro l e
      rw [atPrice_sortSell, atPrice_append_single]
    rcases htype with h | h <;> subst h <;>
      exact ⟨⟨hb _ _, atPrice_sortSell k _⟩, ⟨hs _ _, atPrice_sortBuy k _⟩⟩
  · intro hby hsl
    simp only [matchCompanyOrders]
    set rb := stopBuyPass c.symbol c.price actors c.orderBook.sell c.price c.volume
      c.orderBook.buy with hrb
    set rs := stopSellPass c.symbol c.price rb.actors rb.buy rb.price rb.volume rb.sell with hrs
    have hbuy1 : List.Sorted buyLE
        (if rb.resub ++ rs.resub = [] then rs.buy else sortBuy rs.buy) := by
      split
      · rw [hrs]
        refine stopSellPass_buy_sorted c.symbol c.price _ _ _ _ _ ?_
        rw [hrb]
        exact stopBuyPass_buy_sorted c.symbol c.price _ _ _ _ _ hby
      · exact sorted_sortBuy _
    have hsell1 : List.Sorted sellLE
        (if rb.resub ++ rs.resub = [] then rs.sell else sortSell rs.sell) := by
      split
      · rw [hrs]
        refine stopSellPass_sell_sorted c.symbol c.price _ _ _ _ _ ?_
        rw [hrb]
        exact stopBuyPass_sell_sorted c.symbol c.price _ _ _ _ _ hsl
      · exact sorted_sortSell _
    exact crossLoop_sorted c.symbol fuel _ hbuy1 hsell1
  · simp only [matchCompanyOrders]
    set rb := stopBuyPass c.symbol c.price actors c.orderBook.sell c.price c.volume
      c.orderBook.buy with hrb
    set rs := stopSellPass c.symbol c.price rb.actors rb.buy rb.price rb.volume rb.sell with hrs
    obtain ⟨hcb, hcs⟩ := crossLoop_lane c.symbol fuel
      ⟨(if rb.resub ++ rs.resub = [] then rs.buy else sortBuy rs.buy),
        (if rb.resub ++ rs.resub = [] then rs.sell else sortSell rs.sell),
        rs.actors, c.price, rs.volume, [], []⟩ k
    have hbuy1 : List.Sublist
        (lane k (if rb.resub ++ rs.resub = [] then rs.buy else sortBuy rs.buy))
        (lane k c.orderBook.buy) := by
      have h2 : List.Sublist (lane k rs.buy) (lane k c.orderBook.buy) := by
        refine ((hrs ▸ stopSellPass_buy_lane c.symbol c.price _ _ _ _ _ k).trans ?_)
        rw [hrb]
        exact stopBuyPass_buy_lane c.symbol c.price _ _ _ _ _ k
      split
      · exact h2
      · rw [lane_sortBuy]
        exact h2
    have hsell1 : List.Sublist
        (lane k (if rb.resub ++ rs.resub = [] then rs.sell else sortSell rs.sell))
        (lane k c.orderBook.sell) := by
      have h2 : List.Sublist (lane k rs.sell) (lane k c.orderBook.sell) := by
        refine ((hrs ▸ stopSellPass_sell_lane c.symbol c.price _ _ _ _ _ k).trans ?_)
        rw [hrb]
        exact stopBuyPass_sell_lane c.symbol c.price _ _ _ _ _ k
      split
      · exact h2
      · rw [lane_sortSell]
        exact h2
    exact ⟨hcb.trans hbuy1, hcs.trans hsell1⟩
  · refine ⟨?_, ?_, ?_, ?_⟩
    · exact walkBuy_book_sorted c.symbol aid npc _ _ _ _ _ (sorted_sortSell _)
    · exact walkSell_book_sorted c.symbol aid npc _ _ _ _ _ (sorted_sortBuy _)
    · refine (walkBuy_book_lane c.symbol aid npc _ _ _ _ _ k).trans ?_
      rw [lane_sortSell]
    · refine (walkSell_book_lane c.symbol aid npc _ _ _ _ _ k).trans ?_
      rw [lane_sortBuy]


/-- C8, witness: inserting a sell limit at the resting price level 100 of
the crossed sample book keeps both sides sorted and appends the new order
behind the resting order of equal price. -/
theorem C8_witness :
    List.Sorted buyLE crossCompany.orderBook.buy ∧
    List.Sorted sellLE crossCompany.orderBook.sell ∧
    List.Sorted sellLE (addOrderToBook 3 false crossCompany demoActors Side.sell
        OrderType.limit 100 2 none).1.orderBook.sell ∧
    atPrice 100 (addOrderToBook 3 false crossCompany demoActors Side.sell OrderType.limit
        100 2 none).1.orderBook.sell
      = atPrice 100 crossCompany.orderBook.sell
          ++ [⟨3, false, 100, 2, OrderType.limit, none⟩] ∧
    List.Sorted buyLE (matchCompanyOrders 10 crossCompany demoActors).company.orderBook.buy := by
  have hsb : List.Sorted buyLE crossCompany.orderBook.buy := by
    simp [crossCompany, mkCompany, List.sorted_singleton]
  have hss : List.Sorted sellLE crossCompany.orderBook.sell := by
    simp [crossCompany, mkCompany, List.sorted_singleton]
  have hA := (C8_book_sorted_fifo 3 false crossCompany demoActors 100 2 none
    OrderType.limit 100 10).1 (Or.inl rfl)
  have hB := (C8_book_sorted_fifo 3 false crossCompany demoActors 100 2 none
    OrderType.limit 100 10).2.1 (Or.inl rfl)
  have hC := (C8_book_sorted_fifo 3 false crossCompany demoActors 100 2 none
    OrderType.limit 100 10).2.2.1 hsb hss
  exact ⟨hsb, hss, hA.2.2, by simpa using hB.2.1, hC.1⟩

end Trade
